import Mathlib

/-!
Verification of the union-find based unit-time task scheduler (src/main.c).

The C program keeps an array `slot` of `slot_set` records (fields
`available_slot`, `parent`, `rank`) and schedules each task, in input
order, into `slot[find_set(slot, deadline)].available_slot`, then unites
that slot's set with the set of its circular predecessor (skipping the
union for the last task).  After every step the program calls
`display_all_sets`, which performs a `find_set` on every slot.

The embedding below models the array as a `List slot_set`; the recursive
`find_set` is given explicit fuel, and every out-of-bounds array access
(undefined behaviour in C) is modelled as `none`.
-/

/-- The `slot_set` record from src/main.c. -/
structure slot_set where
  available_slot : Nat
  parent : Nat
  rank : Nat
deriving DecidableEq, Repr

/-- The `slot_set[]` array from src/main.c, modelled as a list. -/
abbrev Forest := List slot_set

/-- Read `slot[i].parent`; out of range defaults to `i` (only used in
range in all lemmas). -/
def parentOf (s : Forest) (i : Nat) : Nat :=
  match s[i]? with
  | some e => e.parent
  | none => i

/-- Read `slot[i].available_slot`; out of range defaults to `0`. -/
def availOf (s : Forest) (i : Nat) : Nat :=
  match s[i]? with
  | some e => e.available_slot
  | none => 0

/-- Read `slot[i].rank`; out of range defaults to `0`. -/
def rankOf (s : Forest) (i : Nat) : Nat :=
  match s[i]? with
  | some e => e.rank
  | none => 0

/-- `make_set` from src/main.c: initialise slot `i` as a singleton set. -/
def make_set (s : Forest) (i : Nat) : Forest :=
  s.set i { available_slot := i, parent := i, rank := 0 }

/-- The initialisation loop of `main`: a fresh forest of `size` singleton
sets (the VLA contents before `make_set` are irrelevant; we use zeros). -/
def mkForest (size : Nat) : Forest :=
  (List.range size).foldl make_set (List.replicate size ⟨0, 0, 0⟩)

/-- `find_set` from src/main.c, with explicit fuel for the recursion on
the parent chain.  Returns the representative together with the mutated
array (path compression re-parents every visited node to the root and
copies the root's `available_slot` into it).  `none` models either an
out-of-bounds access or a parent cycle (both undefined behaviour /
non-termination in the C original). -/
def findSet : Nat → Forest → Nat → Option (Nat × Forest)
  | 0, _, _ => none
  | fuel + 1, s, i =>
    match s[i]? with
    | none => none
    | some e =>
      if e.parent = i then some (i, s)
      else
        match findSet fuel s e.parent with
        | none => none
        | some (r, s1) =>
          match s1[i]?, s1[r]? with
          | some ei, some er =>
            some (r, s1.set i { ei with parent := r, available_slot := er.available_slot })
          | _, _ => none

/-- `merge` from src/main.c (the textbook `link`): union by rank of two
roots; when the first argument's rank is strictly larger, the first
argument survives as root but takes over the second argument's
`available_slot`. -/
def merge (s : Forest) (i j : Nat) : Option Forest :=
  match s[i]?, s[j]? with
  | some ei, some ej =>
    if ej.rank < ei.rank then
      let s1 := s.set j { ej with parent := i }
      match s1[i]?, s1[j]? with
      | some ei1, some ej1 => some (s1.set i { ei1 with available_slot := ej1.available_slot })
      | _, _ => none
    else
      let s1 := s.set i { ei with parent := j }
      match s1[i]?, s1[j]? with
      | some ei1, some ej1 =>
        some (if ei1.rank = ej1.rank then s1.set j { ej1 with rank := ei1.rank + 1 } else s1)
      | _, _ => none
  | _, _ => none

/-- `unite` from src/main.c: `merge(slot, find_set(slot, i), find_set(slot, j))`. -/
def unite (fuel : Nat) (s : Forest) (i j : Nat) : Option Forest :=
  match findSet fuel s i with
  | none => none
  | some (ri, s1) =>
    match findSet fuel s1 j with
    | none => none
    | some (rj, s2) => merge s2 ri rj

/-- The third loop of `display_all_sets` from src/main.c: for each slot
in the given list (in order), print `slot[find_set(slot, i)].available_slot`.
Returns the printed row together with the mutated (path-compressed) array. -/
def displayLoop (fuel : Nat) : List Nat → Forest → Option (List Nat × Forest)
  | [], s => some ([], s)
  | i :: is, s =>
    match findSet fuel s i with
    | none => none
    | some (r, s1) =>
      match s1[r]? with
      | none => none
      | some e =>
        match displayLoop fuel is s1 with
        | none => none
        | some (row, s2) => some (e.available_slot :: row, s2)

/-- `display_all_sets` from src/main.c (its state effect and the printed
representative row; the purely textual headers are omitted). -/
def display_all_sets (fuel size : Nat) (s : Forest) : Option (List Nat × Forest) :=
  displayLoop fuel (List.range size) s

/-- One iteration of the scheduling loop of `main` (find, read the
available slot, optionally unite with the circular predecessor, then
`display_all_sets`).  `doUnite` is false exactly for the last task. -/
def sched_step_op (fuel n last : Nat) (doUnite : Bool) (s : Forest) (d : Nat) :
    Option (Nat × Forest) :=
  match findSet fuel s d with
  | none => none
  | some (r, s1) =>
    match s1[r]? with
    | none => none
    | some e =>
      match (if doUnite then
               unite fuel s1 e.available_slot
                 (if e.available_slot = 0 then last else e.available_slot - 1)
             else some s1) with
      | none => none
      | some s2 =>
        match displayLoop fuel (List.range n) s2 with
        | none => none
        | some (_, s3) => some (e.available_slot, s3)

/-- The scheduling loop of `main` over the remaining deadlines, keeping
the assignments already printed even if a later step hits undefined
behaviour (second component `none`).  The union with the circular
predecessor is skipped exactly on the last task. -/
def schedLoopP (fuel n last : Nat) : List Nat → Forest → List Nat × Option Forest
  | [], s => ([], some s)
  | d :: ds, s =>
    match findSet fuel s d with
    | none => ([], none)
    | some (r, s1) =>
      match s1[r]? with
      | none => ([], none)
      | some e =>
        let a := e.available_slot
        match (if ds.isEmpty then some s1
               else unite fuel s1 a (if a = 0 then last else a - 1)) with
        | none => ([a], none)
        | some s2 =>
          match displayLoop fuel (List.range n) s2 with
          | none => ([a], none)
          | some (_, s3) =>
            let rest := schedLoopP fuel n last ds s3
            (a :: rest.1, rest.2)

/-- The variant of the scheduling loop that always performs the union;
running the full loop on a strict prefix of the deadlines coincides with
this variant (the skip happens only on the very last task). -/
def schedLoopU (fuel n last : Nat) : List Nat → Forest → Option (List Nat × Forest)
  | [], s => some ([], s)
  | d :: ds, s =>
    match sched_step_op fuel n last true s d with
    | none => none
    | some (a, s') =>
      match schedLoopU fuel n last ds s' with
      | none => none
      | some (rest, s'') => some (a :: rest, s'')

/-- A full scheduling run of `main`: initialise the forest, then run the
loop.  First component: the assignments printed before any failure. -/
def schedRun (size : Nat) (ds : List Nat) : List Nat × Option Forest :=
  schedLoopP (size + 1) size (size - 1) ds (mkForest size)

/-- The schedule emitted by a run of `main` that completes without
undefined behaviour (`none` if any step goes out of bounds). -/
def schedule (size : Nat) (ds : List Nat) : Option (List Nat) :=
  match schedRun size ds with
  | (out, some _) => some out
  | (_, none) => none

/-- The default deadline sequence hard-coded in `main` (0-based). -/
def default_deadlines : List Nat := [0, 6, 1, 9, 2, 5, 3, 3, 6, 0]

/-! ### Spec-side description of the greedy policy

`lastFreeLE` and `latestFree` are *not* part of the C source: they
formalise the spec's words "the latest free slot at or before the
deadline", wrapping around to the latest free slot overall when no slot
at or before the deadline is free.  They are used to state the
refinement claims comparing the code to the spec's description. -/

/-- Modelled from the spec: the latest slot `≤ d` that is not in the
assigned list `A`. -/
def lastFreeLE (A : List Nat) : Nat → Option Nat
  | 0 => if 0 ∈ A then none else some 0
  | d + 1 => if d + 1 ∈ A then lastFreeLE A d else some (d + 1)

/-- Modelled from the spec: the latest still-unassigned slot at or
before `d`, or, when every slot `≤ d` is assigned, the latest
still-unassigned slot overall (circular wrap past slot 0). -/
def latestFree (A : List Nat) (n d : Nat) : Option Nat :=
  match lastFreeLE A d with
  | some j => some j
  | none => lastFreeLE A (n - 1)

/-! ### Analysis helpers (pure views of the forest) -/

/-- The list of nodes strictly before the root on the parent chain of
`i` (the nodes `find_set` compresses), computed with fuel. -/
def pathAux : Nat → Forest → Nat → Option (List Nat)
  | 0, _, _ => none
  | fuel + 1, s, i =>
    match s[i]? with
    | none => none
    | some e =>
      if e.parent = i then some []
      else
        match pathAux fuel s e.parent with
        | none => none
        | some P => some (i :: P)

/-- The root of `i`'s tree (pure, no compression), computed with fuel. -/
def rootAux : Nat → Forest → Nat → Option Nat
  | 0, _, _ => none
  | fuel + 1, s, i =>
    match s[i]? with
    | none => none
    | some e =>
      if e.parent = i then some i
      else rootAux fuel s e.parent

/-- `i` and `j` lie in the same set: their parent chains reach a common
root (with some sufficient fuel). -/
def SameSet (s : Forest) (i j : Nat) : Prop :=
  ∃ f g r, rootAux f s i = some r ∧ rootAux g s j = some r

/-! ### Basic list-level helpers -/

theorem list_set_id {s : Forest} {i : Nat} {e : slot_set} (h : s[i]? = some e) :
    s.set i e = s := by
  apply List.ext_getElem?
  intro j
  rcases eq_or_ne i j with rfl | hij
  · rw [List.getElem?_set_self', h]; rfl
  · rw [List.getElem?_set_ne hij]

theorem getElem?_isSome_of_lt {s : Forest} {i : Nat} (h : i < s.length) :
    ∃ e, s[i]? = some e :=
  ⟨s[i], List.getElem?_eq_getElem h⟩

theorem lt_of_getElem?_eq_some {s : Forest} {i : Nat} {e : slot_set} (h : s[i]? = some e) :
    i < s.length := by
  rcases List.getElem?_eq_some_iff.1 h with ⟨h, _⟩
  exact h

theorem parentOf_eq {s : Forest} {i : Nat} {e : slot_set} (h : s[i]? = some e) :
    parentOf s i = e.parent := by
  unfold parentOf; rw [h]

theorem availOf_eq {s : Forest} {i : Nat} {e : slot_set} (h : s[i]? = some e) :
    availOf s i = e.available_slot := by
  unfold availOf; rw [h]

theorem rankOf_eq {s : Forest} {i : Nat} {e : slot_set} (h : s[i]? = some e) :
    rankOf s i = e.rank := by
  unfold rankOf; rw [h]

theorem getElem?_entry {s : Forest} {i : Nat} (h : i < s.length) :
    s[i]? = some ⟨availOf s i, parentOf s i, rankOf s i⟩ := by
  obtain ⟨e, he⟩ := getElem?_isSome_of_lt h
  rw [he, parentOf_eq he, availOf_eq he, rankOf_eq he]

theorem getElem?_set_self_of_lt {s : Forest} {i : Nat} (h : i < s.length) (e : slot_set) :
    (s.set i e)[i]? = some e := by
  rw [List.getElem?_set_self', List.getElem?_eq_getElem h]; rfl

theorem parentOf_set_self {s : Forest} {i : Nat} (h : i < s.length) (e : slot_set) :
    parentOf (s.set i e) i = e.parent :=
  parentOf_eq (getElem?_set_self_of_lt h e)

theorem availOf_set_self {s : Forest} {i : Nat} (h : i < s.length) (e : slot_set) :
    availOf (s.set i e) i = e.available_slot :=
  availOf_eq (getElem?_set_self_of_lt h e)

theorem rankOf_set_self {s : Forest} {i : Nat} (h : i < s.length) (e : slot_set) :
    rankOf (s.set i e) i = e.rank :=
  rankOf_eq (getElem?_set_self_of_lt h e)

theorem parentOf_set_ne {s : Forest} {i j : Nat} (h : i ≠ j) (e : slot_set) :
    parentOf (s.set i e) j = parentOf s j := by
  unfold parentOf; rw [List.getElem?_set_ne h]

theorem availOf_set_ne {s : Forest} {i j : Nat} (h : i ≠ j) (e : slot_set) :
    availOf (s.set i e) j = availOf s j := by
  unfold availOf; rw [List.getElem?_set_ne h]

theorem rankOf_set_ne {s : Forest} {i j : Nat} (h : i ≠ j) (e : slot_set) :
    rankOf (s.set i e) j = rankOf s j := by
  unfold rankOf; rw [List.getElem?_set_ne h]


theorem parentOf_congr_entry {t s : Forest} {j : Nat} (h : t[j]? = s[j]?) :
    parentOf t j = parentOf s j := by
  unfold parentOf; rw [h]

theorem availOf_congr_entry {t s : Forest} {j : Nat} (h : t[j]? = s[j]?) :
    availOf t j = availOf s j := by
  unfold availOf; rw [h]

theorem rankOf_congr_entry {t s : Forest} {j : Nat} (h : t[j]? = s[j]?) :
    rankOf t j = rankOf s j := by
  unfold rankOf; rw [h]

/-! ### Fuel monotonicity -/

theorem findSet_fuel_mono : ∀ {f g : Nat} {s : Forest} {i : Nat} {x : Nat × Forest},
    findSet f s i = some x → f ≤ g → findSet g s i = some x := by
  intro f
  induction f with
  | zero => intro g s i x h _; simp [findSet] at h
  | succ f ih =>
    intro g s i x h hle
    obtain ⟨g', rfl⟩ : ∃ g', g = g' + 1 := ⟨g - 1, by omega⟩
    cases hsi : s[i]? with
    | none => simp only [findSet, hsi] at h; exact absurd h (by simp)
    | some e =>
      simp only [findSet, hsi] at h ⊢
      by_cases hp : e.parent = i
      · simpa [hp] using h
      · simp only [if_neg hp] at h ⊢
        cases hrec : findSet f s e.parent with
        | none => rw [hrec] at h; simp at h
        | some rs => rw [hrec] at h; rw [ih hrec (by omega)]; exact h

theorem rootAux_fuel_mono : ∀ {f g : Nat} {s : Forest} {i : Nat} {r : Nat},
    rootAux f s i = some r → f ≤ g → rootAux g s i = some r := by
  intro f
  induction f with
  | zero => intro g s i r h _; simp [rootAux] at h
  | succ f ih =>
    intro g s i r h hle
    obtain ⟨g', rfl⟩ : ∃ g', g = g' + 1 := ⟨g - 1, by omega⟩
    cases hsi : s[i]? with
    | none => simp only [rootAux, hsi] at h; exact absurd h (by simp)
    | some e =>
      simp only [rootAux, hsi] at h ⊢
      by_cases hp : e.parent = i
      · simpa [hp] using h
      · simp only [if_neg hp] at h ⊢; exact ih h (by omega)

theorem pathAux_fuel_mono : ∀ {f g : Nat} {s : Forest} {i : Nat} {P : List Nat},
    pathAux f s i = some P → f ≤ g → pathAux g s i = some P := by
  intro f
  induction f with
  | zero => intro g s i P h _; simp [pathAux] at h
  | succ f ih =>
    intro g s i P h hle
    obtain ⟨g', rfl⟩ : ∃ g', g = g' + 1 := ⟨g - 1, by omega⟩
    cases hsi : s[i]? with
    | none => simp only [pathAux, hsi] at h; exact absurd h (by simp)
    | some e =>
      simp only [pathAux, hsi] at h ⊢
      by_cases hp : e.parent = i
      · simpa [hp] using h
      · simp only [if_neg hp] at h ⊢
        cases hrec : pathAux f s e.parent with
        | none => rw [hrec] at h; simp at h
        | some P1 => rw [hrec] at h; rw [ih hrec (by omega)]; exact h

theorem rootAux_det {f g : Nat} {s : Forest} {i : Nat} {r r' : Nat}
    (h : rootAux f s i = some r) (h' : rootAux g s i = some r') : r = r' := by
  have h1 := rootAux_fuel_mono h (Nat.le_max_left f g)
  have h2 := rootAux_fuel_mono h' (Nat.le_max_right f g)
  rw [h1] at h2
  exact Option.some_injective _ h2

/-! ### `find_set` on short chains (explicit computation) -/

theorem findSet_at_root {s : Forest} {i : Nat} (hlt : i < s.length)
    (hroot : parentOf s i = i) (f : Nat) : findSet (f + 1) s i = some (i, s) := by
  simp only [findSet, getElem?_entry hlt]
  simp [hroot]

theorem findSet_depth1 {s : Forest} {i r : Nat} (hlt : i < s.length)
    (hpi : parentOf s i = r) (hne : r ≠ i) (hrlt : r < s.length)
    (hroot : parentOf s r = r) (f : Nat) :
    findSet (f + 2) s i = some (r, s.set i ⟨availOf s r, r, rankOf s i⟩) := by
  simp [findSet, getElem?_entry hlt, getElem?_entry hrlt, hpi, hroot, hne]

theorem findSet_depth1_id {s : Forest} {i r : Nat} (hlt : i < s.length)
    (hpi : parentOf s i = r) (hne : r ≠ i) (hrlt : r < s.length)
    (hroot : parentOf s r = r) (hav : availOf s i = availOf s r) (f : Nat) :
    findSet (f + 2) s i = some (r, s) := by
  rw [findSet_depth1 hlt hpi hne hrlt hroot f]
  have heq : s.set i ⟨availOf s r, r, rankOf s i⟩ = s := by
    apply list_set_id
    rw [getElem?_entry hlt, hav, hpi]
  rw [heq]

theorem findSet_depth2 {s : Forest} {i p r : Nat} (hlt : i < s.length)
    (hpi : parentOf s i = p) (hne : p ≠ i) (hplt : p < s.length)
    (hpp : parentOf s p = r) (hne2 : r ≠ p) (hrlt : r < s.length)
    (hroot : parentOf s r = r) (f : Nat) :
    findSet (f + 3) s i = some (r, (s.set p ⟨availOf s r, r, rankOf s p⟩).set i
      ⟨availOf s r, r, rankOf s i⟩) := by
  simp [findSet, getElem?_entry hlt, getElem?_entry hplt, getElem?_entry hrlt,
    hpi, hpp, hroot, hne, hne2,
    List.getElem?_set_ne (fun h => hne h.symm), List.getElem?_set_ne (fun h => hne2 h.symm)]


/-! ### Full specification of a successful `find_set` -/

/-- Everything a successful `find_set` call guarantees: `P` is the list
of visited non-root nodes (in order from `i`), `r` the root found; the
result state re-parents exactly the nodes of `P` to `r`, copying the
root's `available_slot` into them and keeping their ranks, and leaves
every other entry (the root included) untouched. -/
structure FindOut (f : Nat) (s : Forest) (i r : Nat) (s' : Forest) (P : List Nat) : Prop where
  path : pathAux f s i = some P
  root : rootAux f s i = some r
  root_lt : r < s.length
  root_parent : parentOf s r = r
  root_not_mem : r ∉ P
  frame : ∀ j, j ∉ P → s'[j]? = s[j]?
  compressed : ∀ j ∈ P, s'[j]? = some ⟨availOf s r, r, rankOf s j⟩
  len : s'.length = s.length
  mem_path : ∀ j ∈ P, j < s.length ∧ parentOf s j ≠ j
  path_root : ∀ j ∈ P, ∃ g, rootAux g s j = some r
  self_mem : i ∈ P ∨ (i = r ∧ P = [] ∧ s' = s)

theorem findSet_spec : ∀ {f : Nat} {s : Forest} {i r : Nat} {s' : Forest},
    findSet f s i = some (r, s') → ∃ P, FindOut f s i r s' P := by
  intro f
  induction f with
  | zero => intro s i r s' h; simp [findSet] at h
  | succ f ih =>
    intro s i r s' h
    cases hsi : s[i]? with
    | none => simp only [findSet, hsi] at h; exact absurd h (by simp)
    | some e =>
      simp only [findSet, hsi] at h
      by_cases hp : e.parent = i
      · simp only [if_pos hp] at h
        injection h with h3
        injection h3 with hr' hs'
        subst hr'
        subst hs'
        refine ⟨[], ?_⟩
        refine ⟨?_, ?_, ?_, ?_, ?_, ?_, ?_, ?_, ?_, ?_, ?_⟩
        · simp [pathAux, hsi, hp]
        · simp [rootAux, hsi, hp]
        · exact lt_of_getElem?_eq_some hsi
        · rw [parentOf_eq hsi, hp]
        · simp
        · intro j _; rfl
        · intro j hj; simp at hj
        · rfl
        · intro j hj; simp at hj
        · intro j hj; simp at hj
        · exact Or.inr ⟨rfl, rfl, rfl⟩
      · simp only [if_neg hp] at h
        cases hrec : findSet f s e.parent with
        | none => rw [hrec] at h; exact absurd h (by simp)
        | some rs =>
          obtain ⟨r1, s1⟩ := rs
          obtain ⟨P1, F⟩ := ih hrec
          have hilt : i < s.length := lt_of_getElem?_eq_some hsi
          obtain ⟨ei, hei⟩ := getElem?_isSome_of_lt (show i < s1.length from F.len ▸ hilt)
          have hr1 : s1[r1]? = s[r1]? := F.frame r1 F.root_not_mem
          obtain ⟨er, her⟩ := getElem?_isSome_of_lt F.root_lt
          rw [her] at hr1
          simp only [hrec, hei, hr1] at h
          injection h with h3
          injection h3 with hr' hs'
          subst hr'
          subst hs'
          have hpar_i : parentOf s i = e.parent := parentOf_eq hsi
          have hr1i : r1 ≠ i := by
            intro hcon
            have hq := F.root_parent
            rw [hcon] at hq
            rw [hq] at hpar_i
            exact hp (by rw [← hpar_i])
          have hrank_i : ei.rank = rankOf s i := by
            by_cases hiP : i ∈ P1
            · have hc := F.compressed i hiP
              rw [hei] at hc
              have hc2 := Option.some_injective _ hc
              rw [hc2]
            · have hc := F.frame i hiP
              rw [hei, hsi] at hc
              have hc2 := Option.some_injective _ hc
              rw [hc2, rankOf_eq hsi]
          have havr : er.available_slot = availOf s r1 := (availOf_eq her).symm
          refine ⟨i :: P1, ?_⟩
          refine ⟨?_, ?_, ?_, ?_, ?_, ?_, ?_, ?_, ?_, ?_, ?_⟩
          · simp only [pathAux, hsi]
            rw [if_neg hp, F.path]
          · simp only [rootAux, hsi]
            rw [if_neg hp]
            exact F.root
          · exact F.root_lt
          · exact F.root_parent
          · intro hcon
            rcases List.mem_cons.1 hcon with h1 | h1
            · exact hr1i h1
            · exact F.root_not_mem h1
          · intro j hj
            have hji : j ≠ i := fun hcon => hj (hcon ▸ List.mem_cons_self i P1)
            have hjP : j ∉ P1 := fun hcon => hj (List.mem_cons_of_mem i hcon)
            rw [List.getElem?_set_ne (fun hcon => hji hcon.symm), F.frame j hjP]
          · intro j hj
            by_cases hji : j = i
            · subst hji
              rw [getElem?_set_self_of_lt (show j < s1.length from F.len ▸ hilt)]
              rw [havr, hrank_i]
            · have hjP : j ∈ P1 := by
                rcases List.mem_cons.1 hj with h1 | h1
                · exact absurd h1 hji
                · exact h1
              rw [List.getElem?_set_ne (fun hcon => hji hcon.symm)]
              exact F.compressed j hjP
          · rw [List.length_set]; exact F.len
          · intro j hj
            rcases List.mem_cons.1 hj with h1 | h1
            · subst h1
              exact ⟨hilt, by rw [hpar_i]; exact hp⟩
            · exact F.mem_path j h1
          · intro j hj
            rcases List.mem_cons.1 hj with h1 | h1
            · subst h1
              refine ⟨f + 1, ?_⟩
              simp only [rootAux, hsi]
              rw [if_neg hp]
              exact F.root
            · exact F.path_root j h1
          · exact Or.inl (List.mem_cons_self i P1)

theorem findSet_len {f : Nat} {s : Forest} {i r : Nat} {s' : Forest}
    (h : findSet f s i = some (r, s')) : s'.length = s.length := by
  obtain ⟨P, F⟩ := findSet_spec h
  exact F.len

theorem findSet_root_lt {f : Nat} {s : Forest} {i r : Nat} {s' : Forest}
    (h : findSet f s i = some (r, s')) : r < s.length := by
  obtain ⟨P, F⟩ := findSet_spec h
  exact F.root_lt

theorem findSet_root_entry {f : Nat} {s : Forest} {i r : Nat} {s' : Forest}
    (h : findSet f s i = some (r, s')) : s'[r]? = s[r]? := by
  obtain ⟨P, F⟩ := findSet_spec h
  exact F.frame r F.root_not_mem

theorem findSet_parent_after {f : Nat} {s : Forest} {i r : Nat} {s' : Forest}
    (h : findSet f s i = some (r, s')) : parentOf s' i = r := by
  obtain ⟨P, F⟩ := findSet_spec h
  rcases F.self_mem with hm | ⟨rfl, _, rfl⟩
  · exact parentOf_eq (F.compressed i hm)
  · exact F.root_parent

theorem findSet_avail_i {f : Nat} {s : Forest} {i r : Nat} {s' : Forest}
    (h : findSet f s i = some (r, s')) : availOf s' i = availOf s r := by
  obtain ⟨P, F⟩ := findSet_spec h
  rcases F.self_mem with hm | ⟨rfl, _, rfl⟩
  · exact availOf_eq (F.compressed i hm)
  · rfl

theorem findSet_avail_root {f : Nat} {s : Forest} {i r : Nat} {s' : Forest}
    (h : findSet f s i = some (r, s')) : availOf s' r = availOf s r := by
  unfold availOf
  rw [findSet_root_entry h]

theorem findSet_rank {f : Nat} {s : Forest} {i r : Nat} {s' : Forest}
    (h : findSet f s i = some (r, s')) (j : Nat) : rankOf s' j = rankOf s j := by
  obtain ⟨P, F⟩ := findSet_spec h
  by_cases hj : j ∈ P
  · exact rankOf_eq (F.compressed j hj)
  · unfold rankOf; rw [F.frame j hj]

/-- Entries of roots of the original forest are untouched by `find_set`. -/
theorem findSet_preserves_root_entry {f : Nat} {s : Forest} {i r : Nat} {s' : Forest}
    (h : findSet f s i = some (r, s')) {ρ : Nat} (hρ : parentOf s ρ = ρ) :
    s'[ρ]? = s[ρ]? := by
  obtain ⟨P, F⟩ := findSet_spec h
  refine F.frame ρ (fun hm => ?_)
  exact (F.mem_path ρ hm).2 hρ

/-- Path compression does not change the root of any node. -/
theorem findSet_preserves_root {f : Nat} {s : Forest} {i r : Nat} {s' : Forest}
    (h : findSet f s i = some (r, s')) :
    ∀ {g j ρ}, rootAux g s j = some ρ → rootAux g s' j = some ρ := by
  obtain ⟨P, F⟩ := findSet_spec h
  intro g
  induction g with
  | zero => intro j ρ hg; simp [rootAux] at hg
  | succ g ih =>
    intro j ρ hg
    cases hsj : s[j]? with
    | none => simp only [rootAux, hsj] at hg; exact absurd hg (by simp)
    | some ej =>
      simp only [rootAux, hsj] at hg
      by_cases hpj : ej.parent = j
      · rw [if_pos hpj] at hg
        have hjroot : parentOf s j = j := by rw [parentOf_eq hsj, hpj]
        have hjP : j ∉ P := fun hm => (F.mem_path j hm).2 hjroot
        simp only [rootAux, F.frame j hjP, hsj]
        rw [if_pos hpj]
        exact hg
      · rw [if_neg hpj] at hg
        have hg1 : 1 ≤ g := by
          cases g with
          | zero => simp [rootAux] at hg
          | succ g' => omega
        by_cases hjP : j ∈ P
        · have hρr : ρ = r := by
            obtain ⟨g', hg'⟩ := F.path_root j hjP
            have hfull : rootAux (g + 1) s j = some ρ := by
              simp only [rootAux, hsj]
              rw [if_neg hpj]
              exact hg
            exact rootAux_det hfull hg'
          rw [hρr]
          have hrj : r ≠ j := fun hcon => F.root_not_mem (hcon ▸ hjP)
          simp only [rootAux, F.compressed j hjP]
          rw [if_neg hrj]
          obtain ⟨er, her⟩ := getElem?_isSome_of_lt F.root_lt
          have hern : er.parent = r := by
            have hrp := F.root_parent
            rw [parentOf_eq her] at hrp
            exact hrp
          obtain ⟨g', rfl⟩ : ∃ g', g = g' + 1 := ⟨g - 1, by omega⟩
          have her' : s'[r]? = some er := by rw [F.frame r F.root_not_mem]; exact her
          simp only [rootAux, her']
          rw [if_pos hern]
        · simp only [rootAux, F.frame j hjP, hsj]
          rw [if_neg hpj]
          exact ih hg

/-- If the pure root computation succeeds, so does `find_set` (with the
same fuel), returning that root. -/
theorem findSet_of_rootAux : ∀ {f : Nat} {s : Forest} {i r : Nat},
    rootAux f s i = some r → ∃ s', findSet f s i = some (r, s') := by
  intro f
  induction f with
  | zero => intro s i r h; simp [rootAux] at h
  | succ f ih =>
    intro s i r h
    cases hsi : s[i]? with
    | none => simp only [rootAux, hsi] at h; exact absurd h (by simp)
    | some e =>
      simp only [rootAux, hsi] at h
      by_cases hp : e.parent = i
      · rw [if_pos hp] at h
        injection h with h2
        subst h2
        exact ⟨s, by simp only [findSet, hsi]; rw [if_pos hp]⟩
      · rw [if_neg hp] at h
        obtain ⟨s1, hs1⟩ := ih h
        obtain ⟨P1, F⟩ := findSet_spec hs1
        have hilt : i < s.length := lt_of_getElem?_eq_some hsi
        obtain ⟨ei, hei⟩ := getElem?_isSome_of_lt (show i < s1.length from F.len ▸ hilt)
        obtain ⟨er, her⟩ := getElem?_isSome_of_lt F.root_lt
        have hr1 : s1[r]? = some er := by rw [F.frame r F.root_not_mem]; exact her
        refine ⟨s1.set i { ei with parent := r, available_slot := er.available_slot }, ?_⟩
        simp only [findSet, hsi]
        rw [if_neg hp]
        simp only [hs1, hei, hr1]

/-! ### Explicit computation of `merge` -/

theorem merge_gt {s : Forest} {a b : Nat} (ha : a < s.length) (hb : b < s.length)
    (hab : a ≠ b) (hrk : rankOf s b < rankOf s a) :
    merge s a b = some ((s.set b ⟨availOf s b, a, rankOf s b⟩).set a
      ⟨availOf s b, parentOf s a, rankOf s a⟩) := by
  simp only [merge, getElem?_entry ha, getElem?_entry hb]
  rw [if_pos hrk]
  simp only [List.getElem?_set_ne (Ne.symm hab), getElem?_entry ha,
    getElem?_set_self_of_lt hb ⟨availOf s b, a, rankOf s b⟩]

theorem merge_le {s : Forest} {a b : Nat} (ha : a < s.length) (hb : b < s.length)
    (hab : a ≠ b) (hrk : ¬ rankOf s b < rankOf s a) :
    merge s a b = some (if rankOf s a = rankOf s b then
      (s.set a ⟨availOf s a, b, rankOf s a⟩).set b ⟨availOf s b, parentOf s b, rankOf s a + 1⟩
    else s.set a ⟨availOf s a, b, rankOf s a⟩) := by
  simp only [merge, getElem?_entry ha, getElem?_entry hb]
  rw [if_neg hrk]
  simp only [getElem?_set_self_of_lt ha ⟨availOf s a, b, rankOf s a⟩,
    List.getElem?_set_ne hab, getElem?_entry hb]

theorem merge_self_root {s : Forest} {ρ : Nat} (h : ρ < s.length)
    (hroot : parentOf s ρ = ρ) :
    merge s ρ ρ = some (s.set ρ ⟨availOf s ρ, ρ, rankOf s ρ + 1⟩) := by
  simp only [merge, getElem?_entry h]
  rw [if_neg (lt_irrefl (rankOf s ρ))]
  have hid : s.set ρ ⟨availOf s ρ, ρ, rankOf s ρ⟩ = s := by
    apply list_set_id
    rw [getElem?_entry h, hroot]
  simp only [hid, getElem?_entry h, eq_self_iff_true, if_true, hroot]

/-! ### The initial forest -/

theorem make_set_length (s : Forest) (i : Nat) : (make_set s i).length = s.length := by
  unfold make_set; exact List.length_set s i _

theorem foldl_make_set_length : ∀ (L : List Nat) (t : Forest),
    (L.foldl make_set t).length = t.length := by
  intro L
  induction L with
  | nil => intro t; rfl
  | cons i L ih => intro t; rw [List.foldl_cons, ih, make_set_length]

theorem foldl_make_set_not_mem : ∀ {L : List Nat} {t : Forest} {j : Nat}, j ∉ L →
    (L.foldl make_set t)[j]? = t[j]? := by
  intro L
  induction L with
  | nil => intro t j _; rfl
  | cons i L ih =>
    intro t j hj
    rw [List.foldl_cons, ih (fun hm => hj (List.mem_cons_of_mem i hm))]
    unfold make_set
    rw [List.getElem?_set_ne (fun hcon => hj (by rw [← hcon]; exact List.mem_cons_self i L))]

theorem foldl_make_set_mem : ∀ {L : List Nat} {t : Forest} {j : Nat}, j ∈ L →
    j < t.length → (L.foldl make_set t)[j]? = some ⟨j, j, 0⟩ := by
  intro L
  induction L with
  | nil => intro t j hj _; simp at hj
  | cons i L ih =>
    intro t j hj hlt
    rw [List.foldl_cons]
    by_cases hjL : j ∈ L
    · exact ih hjL (by rw [make_set_length]; exact hlt)
    · have hji : j = i := by
        rcases List.mem_cons.1 hj with h1 | h1
        · exact h1
        · exact absurd h1 hjL
      subst hji
      rw [foldl_make_set_not_mem hjL]
      unfold make_set
      exact getElem?_set_self_of_lt hlt _

theorem mkForest_length (n : Nat) : (mkForest n).length = n := by
  unfold mkForest
  rw [foldl_make_set_length, List.length_replicate]

theorem mkForest_get {n i : Nat} (h : i < n) : (mkForest n)[i]? = some ⟨i, i, 0⟩ := by
  unfold mkForest
  exact foldl_make_set_mem (List.mem_range.2 h) (by rw [List.length_replicate]; exact h)

theorem mkForest_parent {n i : Nat} (h : i < n) : parentOf (mkForest n) i = i :=
  parentOf_eq (mkForest_get h)

theorem mkForest_avail {n i : Nat} (h : i < n) : availOf (mkForest n) i = i :=
  availOf_eq (mkForest_get h)

theorem mkForest_rank {n i : Nat} (h : i < n) : rankOf (mkForest n) i = 0 :=
  rankOf_eq (mkForest_get h)

/-! ### Flattening by `display_all_sets` -/

/-- The grandparent of `i` (equals the root when chains have depth at
most two). -/
def root2 (s : Forest) (i : Nat) : Nat := parentOf s (parentOf s i)

/-- The record node `j` carries once its path is compressed, in a forest
of depth at most two. -/
def flatEntry (s : Forest) (j : Nat) : slot_set :=
  ⟨availOf s (root2 s j), root2 s j, rankOf s j⟩

/-- Depth-two well-formedness: parents are in range and every
grandparent is a root. -/
def D2 (s : Forest) : Prop :=
  ∀ i, i < s.length → parentOf s i < s.length ∧ parentOf s (root2 s i) = root2 s i

/-- Fully compressed forest: every node points directly at a root and
caches that root's `available_slot`. -/
def Flat (s : Forest) : Prop :=
  ∀ i, i < s.length → parentOf s i < s.length ∧ parentOf s (parentOf s i) = parentOf s i ∧
    availOf s i = availOf s (parentOf s i)

/-- The fully compressed form of a depth-≤2 forest. -/
def flat2 (s : Forest) : Forest := (List.range s.length).map (flatEntry s)

theorem Flat.d2 {s : Forest} (hf : Flat s) : D2 s := by
  intro i hi
  obtain ⟨h1, h2, _⟩ := hf i hi
  refine ⟨h1, ?_⟩
  unfold root2
  rw [h2, h2]

theorem D2.parent_lt {s : Forest} (hd : D2 s) {i : Nat} (hi : i < s.length) :
    parentOf s i < s.length := (hd i hi).1

theorem D2.root2_lt {s : Forest} (hd : D2 s) {i : Nat} (hi : i < s.length) :
    root2 s i < s.length := (hd (parentOf s i) (hd.parent_lt hi)).1

theorem D2.root2_root {s : Forest} (hd : D2 s) {i : Nat} (hi : i < s.length) :
    parentOf s (root2 s i) = root2 s i := (hd i hi).2

theorem root2_of_root {s : Forest} {q : Nat} (hq : parentOf s q = q) : root2 s q = q := by
  unfold root2; rw [hq, hq]

theorem flatEntry_of_root {s : Forest} {q : Nat} (hq : parentOf s q = q)
    (hlt : q < s.length) : s[q]? = some (flatEntry s q) := by
  rw [getElem?_entry hlt]
  unfold flatEntry
  rw [root2_of_root hq, hq]

theorem flat2_length (s : Forest) : (flat2 s).length = s.length := by
  unfold flat2; rw [List.length_map, List.length_range]

theorem flat2_get {s : Forest} {j : Nat} (h : j < s.length) :
    (flat2 s)[j]? = some (flatEntry s j) := by
  unfold flat2
  rw [List.getElem?_map, List.getElem?_range h]
  rfl

theorem flat2_parent {s : Forest} {j : Nat} (h : j < s.length) :
    parentOf (flat2 s) j = root2 s j := parentOf_eq (flat2_get h)

theorem flat2_avail {s : Forest} {j : Nat} (h : j < s.length) :
    availOf (flat2 s) j = availOf s (root2 s j) := availOf_eq (flat2_get h)

theorem flat2_rank {s : Forest} {j : Nat} (h : j < s.length) :
    rankOf (flat2 s) j = rankOf s j := rankOf_eq (flat2_get h)

theorem flat2_of_flat {s : Forest} (hf : Flat s) : flat2 s = s := by
  apply List.ext_getElem?
  intro j
  by_cases hj : j < s.length
  · rw [flat2_get hj, getElem?_entry hj]
    obtain ⟨_, h2, h3⟩ := hf j hj
    unfold flatEntry root2
    rw [h2, ← h3]
  · rw [List.getElem?_eq_none (by rw [flat2_length]; omega),
      List.getElem?_eq_none (by omega)]

theorem Flat.flat2_self {s : Forest} (hd : D2 s) : Flat (flat2 s) := by
  intro j hj
  rw [flat2_length] at hj
  have hq : root2 s j < s.length := hd.root2_lt hj
  rw [flat2_parent hj]
  refine ⟨by rw [flat2_length]; exact hq, ?_, ?_⟩
  · rw [flat2_parent hq, root2_of_root (hd.root2_root hj)]
  · rw [flat2_avail hj, flat2_avail hq, root2_of_root (hd.root2_root hj)]

/-- A partially flattened version of the depth-≤2 forest `s`: same
length, and every entry is either original or already compressed. -/
def PartFlat (s t : Forest) : Prop :=
  t.length = s.length ∧ ∀ j, j < s.length → t[j]? = s[j]? ∨ t[j]? = some (flatEntry s j)

theorem PartFlat.root_entry {s t : Forest} (hpf : PartFlat s t) {ρ : Nat}
    (hρ : parentOf s ρ = ρ) (hlt : ρ < s.length) : t[ρ]? = s[ρ]? := by
  rcases hpf.2 ρ hlt with h | h
  · exact h
  · rw [h, flatEntry_of_root hρ hlt]

theorem find_on_partial {s t : Forest} (hd2 : D2 s) (hpf : PartFlat s t) {i : Nat}
    (hi : i < s.length) (f : Nat) :
    ∃ t', findSet (f + 3) t i = some (root2 s i, t') ∧ PartFlat s t' ∧
      (∀ j, t[j]? = some (flatEntry s j) → t'[j]? = some (flatEntry s j)) ∧
      t'[i]? = some (flatEntry s i) := by
  have hlen := hpf.1
  have hit : i < t.length := by rw [hlen]; exact hi
  have hq_root : parentOf s (root2 s i) = root2 s i := hd2.root2_root hi
  have hq_lt : root2 s i < s.length := hd2.root2_lt hi
  have hqt : root2 s i < t.length := by rw [hlen]; exact hq_lt
  have hp_lt : parentOf s i < s.length := hd2.parent_lt hi
  have hpt : parentOf s i < t.length := by rw [hlen]; exact hp_lt
  have htq : t[root2 s i]? = s[root2 s i]? := hpf.root_entry hq_root hq_lt
  have htq_parent : parentOf t (root2 s i) = root2 s i := by
    rw [parentOf_congr_entry htq]; exact hq_root
  have htq_avail : availOf t (root2 s i) = availOf s (root2 s i) :=
    availOf_congr_entry htq
  rcases hpf.2 i hi with hti | hti
  · -- entry of `i` still original
    have hpti : parentOf t i = parentOf s i := parentOf_congr_entry hti
    have hrki : rankOf t i = rankOf s i := rankOf_congr_entry hti
    by_cases hpi : parentOf s i = i
    · have hq : root2 s i = i := by unfold root2; rw [hpi, hpi]
      refine ⟨t, ?_, hpf, fun j hj => hj, ?_⟩
      · rw [hq]
        exact findSet_at_root hit (by rw [hpti, hpi]) (f + 2)
      · rw [hti]; exact flatEntry_of_root hpi hi
    · have hptp : parentOf t (parentOf s i) = root2 s i := by
        rcases hpf.2 _ hp_lt with htp | htp
        · exact parentOf_congr_entry htp
        · have heq : parentOf t (parentOf s i) = root2 s (parentOf s i) := parentOf_eq htp
          rw [heq]
          show parentOf s (parentOf s (parentOf s i)) = root2 s i
          show parentOf s (root2 s i) = root2 s i
          exact hq_root
      have hrkp : rankOf t (parentOf s i) = rankOf s (parentOf s i) := by
        rcases hpf.2 _ hp_lt with htp | htp
        · exact rankOf_congr_entry htp
        · rw [rankOf_eq htp]; rfl
      by_cases hqp : root2 s i = parentOf s i
      · -- depth-one chain
        have hfind := findSet_depth1 hit (by rw [hpti]) (fun h => hpi h)
          hpt (by rw [← hqp] at hptp ⊢; rw [hptp, hqp]) (f + 1)
        rw [show f + 1 + 2 = f + 3 by omega] at hfind
        have hval : (⟨availOf t (parentOf s i), parentOf s i, rankOf t i⟩ : slot_set)
            = flatEntry s i := by
          unfold flatEntry
          rw [hrki, ← hqp, htq_avail]
        refine ⟨t.set i (flatEntry s i), ?_, ?_, ?_, ?_⟩
        · rw [hqp, ← hval]; exact hfind
        · refine ⟨by rw [List.length_set]; exact hlen, ?_⟩
          intro j hj
          by_cases hji : j = i
          · subst hji
            right
            exact getElem?_set_self_of_lt hit _
          · rw [List.getElem?_set_ne (fun hcon => hji hcon.symm)]
            exact hpf.2 j hj
        · intro j hj
          by_cases hji : j = i
          · subst hji
            exact getElem?_set_self_of_lt hit _
          · rw [List.getElem?_set_ne (fun hcon => hji hcon.symm)]
            exact hj
        · exact getElem?_set_self_of_lt hit _
      · -- depth-two chain
        have hfind := findSet_depth2 hit (by rw [hpti]) (fun h => hpi h) hpt
          hptp (fun h => hqp h) hqt htq_parent f
        have hvalp : (⟨availOf t (root2 s i), root2 s i, rankOf t (parentOf s i)⟩ : slot_set)
            = flatEntry s (parentOf s i) := by
          unfold flatEntry
          have hr2p : root2 s (parentOf s i) = root2 s i := by
            show parentOf s (parentOf s (parentOf s i)) = root2 s i
            show parentOf s (root2 s i) = root2 s i
            exact hq_root
          rw [hrkp, hr2p, htq_avail]
        have hvali : (⟨availOf t (root2 s i), root2 s i, rankOf t i⟩ : slot_set)
            = flatEntry s i := by
          unfold flatEntry
          rw [hrki, htq_avail]
        refine ⟨(t.set (parentOf s i) (flatEntry s (parentOf s i))).set i (flatEntry s i),
          ?_, ?_, ?_, ?_⟩
        · rw [← hvalp, ← hvali]; exact hfind
        · refine ⟨by rw [List.length_set, List.length_set]; exact hlen, ?_⟩
          intro j hj
          by_cases hji : j = i
          · subst hji
            right
            exact getElem?_set_self_of_lt (by rw [List.length_set]; exact hit) _
          · rw [List.getElem?_set_ne (fun hcon => hji hcon.symm)]
            by_cases hjp : j = parentOf s i
            · subst hjp
              right
              exact getElem?_set_self_of_lt hpt _
            · rw [List.getElem?_set_ne (fun hcon => hjp hcon.symm)]
              exact hpf.2 j hj
        · intro j hj
          by_cases hji : j = i
          · subst hji
            exact getElem?_set_self_of_lt (by rw [List.length_set]; exact hit) _
          · rw [List.getElem?_set_ne (fun hcon => hji hcon.symm)]
            by_cases hjp : j = parentOf s i
            · subst hjp
              exact getElem?_set_self_of_lt hpt _
            · rw [List.getElem?_set_ne (fun hcon => hjp hcon.symm)]
              exact hj
        · exact getElem?_set_self_of_lt (by rw [List.length_set]; exact hit) _
  · -- entry of `i` already flat
    have hpti : parentOf t i = root2 s i := parentOf_eq hti
    have havi : availOf t i = availOf s (root2 s i) := by
      rw [availOf_eq hti]; rfl
    by_cases hqi : root2 s i = i
    · refine ⟨t, ?_, hpf, fun j hj => hj, hti⟩
      rw [hqi]
      exact findSet_at_root hit (by rw [hpti, hqi]) (f + 2)
    · have hfind := findSet_depth1_id hit hpti (fun h => hqi h) hqt htq_parent
        (by rw [havi, htq_avail]) (f + 1)
      rw [show f + 1 + 2 = f + 3 by omega] at hfind
      exact ⟨t, hfind, hpf, fun j hj => hj, hti⟩

theorem displayLoop_partial : ∀ {L : List Nat} {s t : Forest}, D2 s → PartFlat s t →
    (∀ i ∈ L, i < s.length) → ∀ f : Nat,
    ∃ row t', displayLoop (f + 3) L t = some (row, t') ∧ PartFlat s t' ∧
      (∀ j, t[j]? = some (flatEntry s j) → t'[j]? = some (flatEntry s j)) ∧
      (∀ j ∈ L, t'[j]? = some (flatEntry s j)) := by
  intro L
  induction L with
  | nil =>
    intro s t _ hpf _ f
    exact ⟨[], t, rfl, hpf, fun j hj => hj, fun j hj => absurd hj (by simp)⟩
  | cons i L ih =>
    intro s t hd2 hpf hL f
    have hi : i < s.length := hL i (List.mem_cons_self i L)
    obtain ⟨t1, hfind, hpf1, hkeep1, hflat1⟩ := find_on_partial hd2 hpf hi f
    have hq_root := hd2.root2_root hi
    have hq_lt := hd2.root2_lt hi
    have hrq : t1[root2 s i]? = s[root2 s i]? := hpf1.root_entry hq_root hq_lt
    obtain ⟨er, her⟩ := getElem?_isSome_of_lt hq_lt
    obtain ⟨row, t2, hloop, hpf2, hkeep2, hmem2⟩ :=
      ih hd2 hpf1 (fun j hj => hL j (List.mem_cons_of_mem i hj)) f
    refine ⟨er.available_slot :: row, t2, ?_, hpf2, ?_, ?_⟩
    · simp only [displayLoop, hfind, hrq.trans her, hloop]
    · intro j hj
      exact hkeep2 j (hkeep1 j hj)
    · intro j hj
      rcases List.mem_cons.1 hj with h1 | h1
      · subst h1
        exact hkeep2 j hflat1
      · exact hmem2 j h1

theorem display_flattens {s : Forest} (hd2 : D2 s) (f : Nat) :
    ∃ row, displayLoop (f + 3) (List.range s.length) s = some (row, flat2 s) := by
  obtain ⟨row, t', hloop, hpf', _, hmem⟩ := displayLoop_partial hd2
    ⟨rfl, fun j _ => Or.inl rfl⟩ (fun j hj => List.mem_range.1 hj) f
  have ht' : t' = flat2 s := by
    apply List.ext_getElem?
    intro j
    by_cases hj : j < s.length
    · rw [hmem j (List.mem_range.2 hj), flat2_get hj]
    · rw [List.getElem?_eq_none (by rw [hpf'.1]; omega),
        List.getElem?_eq_none (by rw [flat2_length]; omega)]
  rw [ht'] at hloop
  exact ⟨row, hloop⟩

theorem display_flat_id {s : Forest} (hf : Flat s) (f : Nat) :
    ∃ row, displayLoop (f + 3) (List.range s.length) s = some (row, s) := by
  obtain ⟨row, h⟩ := display_flattens hf.d2 f
  rw [flat2_of_flat hf] at h
  exact ⟨row, h⟩

/-! ### Arithmetic of the greedy "latest free slot" function -/

theorem lastFreeLE_le {A : List Nat} : ∀ {d j : Nat}, lastFreeLE A d = some j → j ≤ d := by
  intro d
  induction d with
  | zero =>
    intro j h
    unfold lastFreeLE at h
    by_cases h0 : 0 ∈ A
    · rw [if_pos h0] at h; exact absurd h (by simp)
    · rw [if_neg h0] at h; injection h with h; omega
  | succ d ih =>
    intro j h
    unfold lastFreeLE at h
    by_cases hd : d + 1 ∈ A
    · rw [if_pos hd] at h; exact le_trans (ih h) (by omega)
    · rw [if_neg hd] at h; injection h with h; omega

theorem lastFreeLE_not_mem {A : List Nat} : ∀ {d j : Nat}, lastFreeLE A d = some j → j ∉ A := by
  intro d
  induction d with
  | zero =>
    intro j h
    unfold lastFreeLE at h
    by_cases h0 : 0 ∈ A
    · rw [if_pos h0] at h; exact absurd h (by simp)
    · rw [if_neg h0] at h; injection h with h; rw [← h]; exact h0
  | succ d ih =>
    intro j h
    unfold lastFreeLE at h
    by_cases hd : d + 1 ∈ A
    · rw [if_pos hd] at h; exact ih h
    · rw [if_neg hd] at h; injection h with h; rw [← h]; exact hd

theorem lastFreeLE_max {A : List Nat} : ∀ {d j : Nat}, lastFreeLE A d = some j →
    ∀ k, j < k → k ≤ d → k ∈ A := by
  intro d
  induction d with
  | zero => intro j h k hk1 hk2; omega
  | succ d ih =>
    intro j h k hk1 hk2
    unfold lastFreeLE at h
    by_cases hd : d + 1 ∈ A
    · rw [if_pos hd] at h
      by_cases hkd : k = d + 1
      · rw [hkd]; exact hd
      · exact ih h k hk1 (by omega)
    · rw [if_neg hd] at h
      injection h with h
      omega

theorem lastFreeLE_none {A : List Nat} : ∀ {d : Nat}, lastFreeLE A d = none →
    ∀ k, k ≤ d → k ∈ A := by
  intro d
  induction d with
  | zero =>
    intro h k hk
    unfold lastFreeLE at h
    by_cases h0 : 0 ∈ A
    · have : k = 0 := by omega
      rw [this]; exact h0
    · rw [if_neg h0] at h; exact absurd h (by simp)
  | succ d ih =>
    intro h k hk
    unfold lastFreeLE at h
    by_cases hd : d + 1 ∈ A
    · rw [if_pos hd] at h
      by_cases hkd : k = d + 1
      · rw [hkd]; exact hd
      · exact ih h k (by omega)
    · rw [if_neg hd] at h; exact absurd h (by simp)

theorem lastFreeLE_none_of {A : List Nat} : ∀ {d : Nat}, (∀ k, k ≤ d → k ∈ A) →
    lastFreeLE A d = none := by
  intro d
  induction d with
  | zero =>
    intro h
    unfold lastFreeLE
    rw [if_pos (h 0 (le_refl 0))]
  | succ d ih =>
    intro h
    unfold lastFreeLE
    rw [if_pos (h (d + 1) (le_refl _))]
    exact ih (fun k hk => h k (by omega))

theorem lastFreeLE_self {A : List Nat} {a : Nat} (h : a ∉ A) : lastFreeLE A a = some a := by
  cases a with
  | zero => unfold lastFreeLE; rw [if_neg h]
  | succ b => unfold lastFreeLE; rw [if_neg h]

theorem lastFreeLE_isSome_of {A : List Nat} {d j : Nat} (hj : j ∉ A) (hle : j ≤ d) :
    ∃ m, lastFreeLE A d = some m ∧ j ≤ m := by
  induction d with
  | zero =>
    have : j = 0 := by omega
    subst this
    exact ⟨0, lastFreeLE_self hj, le_refl 0⟩
  | succ d ih =>
    by_cases hjd : j = d + 1
    · subst hjd
      exact ⟨d + 1, lastFreeLE_self hj, le_refl _⟩
    · have hj' : j ≤ d := by omega
      obtain ⟨m, hm, hjm⟩ := ih hj'
      unfold lastFreeLE
      by_cases hd : d + 1 ∈ A
      · rw [if_pos hd]
        exact ⟨m, hm, hjm⟩
      · rw [if_neg hd]
        exact ⟨d + 1, rfl, by omega⟩

theorem lastFreeLE_congr {A B : List Nat} : ∀ {d : Nat},
    (∀ k, k ≤ d → ((k ∈ A) ↔ (k ∈ B))) → lastFreeLE A d = lastFreeLE B d := by
  intro d
  induction d with
  | zero =>
    intro h
    unfold lastFreeLE
    by_cases h0 : 0 ∈ A
    · rw [if_pos h0, if_pos ((h 0 (le_refl 0)).1 h0)]
    · rw [if_neg h0, if_neg (fun hb => h0 ((h 0 (le_refl 0)).2 hb))]
  | succ d ih =>
    intro h
    unfold lastFreeLE
    by_cases hd : d + 1 ∈ A
    · rw [if_pos hd, if_pos ((h (d + 1) (le_refl _)).1 hd)]
      exact ih (fun k hk => h k (by omega))
    · rw [if_neg hd, if_neg (fun hb => hd ((h (d + 1) (le_refl _)).2 hb))]

theorem lastFreeLE_skip {A : List Nat} : ∀ {d c : Nat}, c ≤ d →
    (∀ k, c < k → k ≤ d → k ∈ A) → lastFreeLE A d = lastFreeLE A c := by
  intro d
  induction d with
  | zero =>
    intro c hc _
    have : c = 0 := by omega
    rw [this]
  | succ d ih =>
    intro c hc h
    by_cases hcd : c = d + 1
    · rw [hcd]
    · have hc' : c ≤ d := by omega
      have hstep : lastFreeLE A (d + 1) = lastFreeLE A d := by
        show (if d + 1 ∈ A then lastFreeLE A d else some (d + 1)) = lastFreeLE A d
        rw [if_pos (h (d + 1) (by omega) (le_refl _))]
      rw [hstep]
      exact ih hc' (fun k hk1 hk2 => h k hk1 (by omega))

theorem lastFreeLE_cons_ne {A : List Nat} {a : Nat} : ∀ {d j : Nat},
    lastFreeLE A d = some j → j ≠ a → lastFreeLE (a :: A) d = some j := by
  intro d
  induction d with
  | zero =>
    intro j h hja
    unfold lastFreeLE at h ⊢
    by_cases h0 : 0 ∈ A
    · rw [if_pos h0] at h; exact absurd h (by simp)
    · rw [if_neg h0] at h
      injection h with h
      subst h
      rw [if_neg (by simp [h0, hja])]
  | succ d ih =>
    intro j h hja
    unfold lastFreeLE at h ⊢
    by_cases hd : d + 1 ∈ A
    · rw [if_pos hd] at h
      rw [if_pos (List.mem_cons_of_mem a hd)]
      exact ih h hja
    · rw [if_neg hd] at h
      injection h with h
      subst h
      rw [if_neg (by simp [hd, hja])]

theorem lastFreeLE_cons_self_pos {A : List Nat} {a d : Nat}
    (h : lastFreeLE A d = some a) (ha : 0 < a) :
    lastFreeLE (a :: A) d = lastFreeLE A (a - 1) := by
  have had : a ≤ d := lastFreeLE_le h
  have hskip : lastFreeLE (a :: A) d = lastFreeLE (a :: A) (a - 1) := by
    apply lastFreeLE_skip (by omega)
    intro k hk1 hk2
    by_cases hka : k = a
    · rw [hka]; exact List.mem_cons_self a A
    · exact List.mem_cons_of_mem a (lastFreeLE_max h k (by omega) hk2)
  rw [hskip]
  apply lastFreeLE_congr
  intro k hk
  constructor
  · intro hm
    rcases List.mem_cons.1 hm with h1 | h1
    · omega
    · exact h1
  · exact List.mem_cons_of_mem a

theorem lastFreeLE_cons_self_zero {A : List Nat} {d : Nat}
    (h : lastFreeLE A d = some 0) : lastFreeLE (0 :: A) d = none := by
  apply lastFreeLE_none_of
  intro k hk
  by_cases hk0 : k = 0
  · rw [hk0]; exact List.mem_cons_self 0 A
  · exact List.mem_cons_of_mem 0 (lastFreeLE_max h k (by omega) hk)

theorem lastFreeLE_append_singleton {A : List Nat} {a : Nat} (d : Nat) :
    lastFreeLE (A ++ [a]) d = lastFreeLE (a :: A) d := by
  apply lastFreeLE_congr
  intro k _
  simp [List.mem_append, List.mem_cons]
  tauto

theorem latestFree_spec {A : List Nat} {n t j : Nat} (ht : t < n)
    (h : latestFree A n t = some j) : j < n ∧ j ∉ A := by
  unfold latestFree at h
  cases hlf : lastFreeLE A t with
  | some m =>
    rw [hlf] at h
    injection h with h
    subst h
    exact ⟨by have := lastFreeLE_le hlf; omega, lastFreeLE_not_mem hlf⟩
  | none =>
    rw [hlf] at h
    exact ⟨by have := lastFreeLE_le h; omega, lastFreeLE_not_mem h⟩

theorem latestFree_at_free {A : List Nat} {n a : Nat} (ha : a ∉ A) (han : a < n) :
    latestFree A n a = some a := by
  unfold latestFree
  rw [lastFreeLE_self ha]

theorem latestFree_empty {n t : Nat} (ht : t < n) : latestFree [] n t = some t := by
  unfold latestFree
  rw [lastFreeLE_self (by simp)]

/-- The circular-predecessor step always resolves to a free slot distinct
from `a`, provided some other free slot exists. -/
theorem latestFree_pred {A : List Nat} {n a : Nat} (han : a < n)
    (hw : ∃ w, w < n ∧ w ∉ A ∧ w ≠ a) :
    ∃ pv, latestFree A n (if a = 0 then n - 1 else a - 1) = some pv ∧ pv ≠ a := by
  obtain ⟨w, hwn, hwA, hwa⟩ := hw
  by_cases ha0 : a = 0
  · subst ha0
    rw [if_pos rfl]
    obtain ⟨M, hM, hwM⟩ := lastFreeLE_isSome_of hwA (show w ≤ n - 1 by omega)
    refine ⟨M, ?_, by omega⟩
    unfold latestFree
    rw [hM]
  · rw [if_neg ha0]
    unfold latestFree
    cases hlf : lastFreeLE A (a - 1) with
    | some m =>
      refine ⟨m, rfl, ?_⟩
      have := lastFreeLE_le hlf
      omega
    | none =>
      have hwgt : a < w := by
        rcases Nat.lt_trichotomy w a with h1 | h1 | h1
        · exact absurd (lastFreeLE_none hlf w (by omega)) hwA
        · exact absurd h1 hwa
        · exact h1
      obtain ⟨M, hM, hwM⟩ := lastFreeLE_isSome_of hwA (show w ≤ n - 1 by omega)
      rw [hM]
      exact ⟨M, rfl, by omega⟩

/-- How the greedy "latest free" function changes when the fresh slot
`a` becomes assigned: requests that previously resolved to `a` now
resolve to `a`'s circular predecessor's answer; all others are
unchanged.  Requires some other slot to still be free. -/
theorem latestFree_update {A : List Nat} {n a : Nat} (han : a < n)
    (hw : ∃ w, w < n ∧ w ∉ A ∧ w ≠ a) {t : Nat} (ht : t < n) :
    latestFree (a :: A) n t =
      if latestFree A n t = some a then latestFree A n (if a = 0 then n - 1 else a - 1)
      else latestFree A n t := by
  obtain ⟨w, hwn, hwA, hwa⟩ := hw
  cases hlf : lastFreeLE A t with
  | some j =>
    have hLF : latestFree A n t = some j := by unfold latestFree; rw [hlf]
    by_cases hja : j = a
    · subst hja
      rw [hLF, if_pos rfl]
      by_cases ha0 : j = 0
      · subst ha0
        rw [if_pos rfl]
        have hz : lastFreeLE (0 :: A) t = none := lastFreeLE_cons_self_zero hlf
        have hMex : ∃ M, lastFreeLE A (n - 1) = some M ∧ w ≤ M :=
          lastFreeLE_isSome_of hwA (show w ≤ n - 1 by omega)
        obtain ⟨M, hM, hwM⟩ := hMex
        have hM0 : M ≠ 0 := by omega
        unfold latestFree
        rw [hz, hM, lastFreeLE_cons_ne hM hM0]
      · rw [if_neg ha0]
        have hcs : lastFreeLE (j :: A) t = lastFreeLE A (j - 1) :=
          lastFreeLE_cons_self_pos hlf (by omega)
        unfold latestFree
        rw [hcs]
        cases hlf2 : lastFreeLE A (j - 1) with
        | some m => rfl
        | none =>
          have hwgt : j < w := by
            rcases Nat.lt_trichotomy w j with h1 | h1 | h1
            · exact absurd (lastFreeLE_none hlf2 w (by omega)) hwA
            · exact absurd h1 hwa
            · exact h1
          obtain ⟨M, hM, hwM⟩ := lastFreeLE_isSome_of hwA (show w ≤ n - 1 by omega)
          rw [hM, lastFreeLE_cons_ne hM (by omega)]
    · rw [hLF, if_neg (by simp [hja])]
      unfold latestFree
      simp only [lastFreeLE_cons_ne hlf hja]
  | none =>
    have hnone : lastFreeLE (a :: A) t = none :=
      lastFreeLE_none_of (fun k hk => List.mem_cons_of_mem a (lastFreeLE_none hlf k hk))
    have hLF : latestFree A n t = lastFreeLE A (n - 1) := by unfold latestFree; rw [hlf]
    cases hW : lastFreeLE A (n - 1) with
    | none =>
      obtain ⟨M, hM, _⟩ := lastFreeLE_isSome_of hwA (show w ≤ n - 1 by omega)
      rw [hM] at hW
      exact absurd hW (by simp)
    | some M =>
      by_cases hMa : M = a
      · subst hMa
        rw [hLF, hW, if_pos rfl]
        by_cases ha0 : M = 0
        · subst ha0
          have : w ∈ A := lastFreeLE_max hW w (by omega) (by omega)
          exact absurd this hwA
        · rw [if_neg ha0]
          have hcs : lastFreeLE (M :: A) (n - 1) = lastFreeLE A (M - 1) :=
            lastFreeLE_cons_self_pos hW (by omega)
          unfold latestFree
          rw [hnone, hcs]
          cases hlf2 : lastFreeLE A (M - 1) with
          | some m => rfl
          | none =>
            have hwgt : M < w := by
              rcases Nat.lt_trichotomy w M with h1 | h1 | h1
              · exact absurd (lastFreeLE_none hlf2 w (by omega)) hwA
              · exact absurd h1 hwa
              · exact h1
            have : w ∈ A := lastFreeLE_max hW w (by omega) (by omega)
            exact absurd this hwA
      · rw [hLF, hW, if_neg (by simp [hMa])]
        unfold latestFree
        rw [hnone, lastFreeLE_cons_ne hW hMa]

/-! ### The scheduling-run invariant -/

/-- The invariant holding between scheduling steps: the forest is fully
compressed (thanks to the per-step `display_all_sets`), every node's
cached `available_slot` is exactly the greedy "latest free slot" answer
for it, distinct roots carry distinct available slots, and the list `A`
of already-assigned slots is duplicate-free and in range. -/
structure SchedInv (n : Nat) (A : List Nat) (s : Forest) : Prop where
  len : s.length = n
  flat : Flat s
  avail_latest : ∀ i, i < n → latestFree A n i = some (availOf s i)
  roots_inj : ∀ i j, i < n → j < n → parentOf s i = i → parentOf s j = j →
    availOf s i = availOf s j → i = j
  nodupA : A.Nodup
  boundA : ∀ x ∈ A, x < n

theorem SchedInv.init (n : Nat) : SchedInv n [] (mkForest n) := by
  refine ⟨mkForest_length n, ?_, ?_, ?_, List.nodup_nil, by simp⟩
  · intro i hi
    rw [mkForest_length] at hi
    rw [mkForest_parent hi]
    exact ⟨by rw [mkForest_length]; exact hi, mkForest_parent hi,
      by rw [mkForest_avail hi]⟩
  · intro i hi
    rw [mkForest_avail hi]
    exact latestFree_empty hi
  · intro i j hi hj _ _ hav
    rw [mkForest_avail hi, mkForest_avail hj] at hav
    exact hav

theorem second_free {n : Nat} {A : List Nat} (hnd : A.Nodup) (hb : ∀ x ∈ A, x < n)
    (hlen : A.length + 2 ≤ n) (a : Nat) : ∃ w, w < n ∧ w ∉ A ∧ w ≠ a := by
  have hcard : A.toFinset.card = A.length := List.toFinset_card_of_nodup hnd
  have hsub : A.toFinset ⊆ Finset.range n := by
    intro x hx
    rw [Finset.mem_range]
    exact hb x (List.mem_toFinset.1 hx)
  have hS : 2 ≤ (Finset.range n \ A.toFinset).card := by
    rw [Finset.card_sdiff hsub, Finset.card_range]
    omega
  have h1 : 1 < (Finset.range n \ A.toFinset).card := by omega
  obtain ⟨w, hwS, hwa⟩ := Finset.exists_ne_of_one_lt_card h1 a
  rw [Finset.mem_sdiff, Finset.mem_range] at hwS
  exact ⟨w, hwS.1, fun hm => hwS.2 (List.mem_toFinset.2 hm), hwa⟩

theorem latestFree_append {A : List Nat} {a n t : Nat} :
    latestFree (A ++ [a]) n t = latestFree (a :: A) n t := by
  unfold latestFree
  rw [lastFreeLE_append_singleton, lastFreeLE_append_singleton]

/-- On a fully compressed forest, `find_set` answers in one hop and does
not change the state. -/
theorem findSet_flat {s : Forest} (hf : Flat s) {i : Nat} (hi : i < s.length) (f : Nat) :
    findSet (f + 3) s i = some (parentOf s i, s) := by
  obtain ⟨h1, h2, h3⟩ := hf i hi
  by_cases hroot : parentOf s i = i
  · rw [hroot]
    exact findSet_at_root hi hroot (f + 2)
  · have := findSet_depth1_id hi rfl (fun h => hroot h) h1 h2 h3 (f + 1)
    rw [show f + 1 + 2 = f + 3 by omega] at this
    exact this

/-- Re-establishing the invariant after one scheduling step: `a` (free,
with `latestFree` answer `a` wherever the step's deadline pointed) has
just been assigned, and the forest `s2` is the state after `merge`d
roots `ra` (available slot `a`) and `rp` (available slot `pv`, the
predecessor's answer), with winner `w` and loser `l`.  The flattened
`s2` (produced by the per-step display) satisfies the invariant for
`A ++ [a]`. -/
theorem post_merge_inv {n : Nat} {A : List Nat} {s s2 : Forest} {a pv ra rp w l : Nat}
    (hInv : SchedInv n A s)
    (haA : a ∉ A) (han : a < n) (hpv_ne : pv ≠ a)
    (hupd : ∀ t, t < n → latestFree (a :: A) n t =
      if latestFree A n t = some a then some pv else latestFree A n t)
    (hra_root : parentOf s ra = ra) (hrp_root : parentOf s rp = rp)
    (hra_lt : ra < n) (hrp_lt : rp < n)
    (hra_avail : availOf s ra = a) (hrp_avail : availOf s rp = pv)
    (hwl : (w = ra ∧ l = rp) ∨ (w = rp ∧ l = ra))
    (hlen2 : s2.length = n)
    (hparent2 : ∀ j, j < n → parentOf s2 j = if j = l then w else parentOf s j)
    (havail2_w : availOf s2 w = pv)
    (havail2 : ∀ j, j < n → j ≠ l → j ≠ w → availOf s2 j = availOf s j) :
    D2 s2 ∧ SchedInv n (A ++ [a]) (flat2 s2) := by
  have hlen := hInv.len
  have hflat := hInv.flat
  have hw_root : parentOf s w = w := by rcases hwl with ⟨rfl, _⟩ | ⟨rfl, _⟩ <;> assumption
  have hl_root : parentOf s l = l := by rcases hwl with ⟨_, rfl⟩ | ⟨_, rfl⟩ <;> assumption
  have hw_lt : w < n := by rcases hwl with ⟨rfl, _⟩ | ⟨rfl, _⟩ <;> assumption
  have hl_lt : l < n := by rcases hwl with ⟨_, rfl⟩ | ⟨_, rfl⟩ <;> assumption
  have hra_ne_rp : ra ≠ rp := by
    intro hcon
    rw [hcon, hrp_avail] at hra_avail
    exact hpv_ne hra_avail
  have hw_ne_l : w ≠ l := by
    rcases hwl with ⟨rfl, rfl⟩ | ⟨rfl, rfl⟩
    · exact hra_ne_rp
    · exact fun hcon => hra_ne_rp hcon.symm
  have hparent_lt : ∀ j, j < n → parentOf s j < n := by
    intro j hj
    have := (hflat j (by rw [hlen]; exact hj)).1
    rw [hlen] at this
    exact this
  have hparent_root : ∀ j, j < n → parentOf s (parentOf s j) = parentOf s j := by
    intro j hj
    exact (hflat j (by rw [hlen]; exact hj)).2.1
  have havail_flat : ∀ j, j < n → availOf s j = availOf s (parentOf s j) := by
    intro j hj
    exact (hflat j (by rw [hlen]; exact hj)).2.2
  -- the root (grandparent) in `s2`
  have hroot2 : ∀ j, j < n → root2 s2 j = if parentOf s j = l then w else parentOf s j := by
    intro j hj
    unfold root2
    rw [hparent2 j hj]
    by_cases hjl : j = l
    · rw [if_pos hjl, hparent2 w hw_lt, if_neg hw_ne_l, hjl, hl_root, if_pos rfl]
      exact hw_root
    · rw [if_neg hjl]
      by_cases hxl : parentOf s j = l
      · rw [hxl, hparent2 l hl_lt, if_pos rfl, if_pos rfl]
      · rw [hparent2 (parentOf s j) (hparent_lt j hj), if_neg hxl,
          hparent_root j hj, if_neg hxl]
  have hd2 : D2 s2 := by
    intro j hj
    rw [hlen2] at hj
    constructor
    · rw [hlen2, hparent2 j hj]
      by_cases hjl : j = l
      · rw [if_pos hjl]; exact hw_lt
      · rw [if_neg hjl]; exact hparent_lt j hj
    · rw [hroot2 j hj]
      by_cases hxl : parentOf s j = l
      · rw [if_pos hxl, hparent2 w hw_lt, if_neg hw_ne_l, hw_root]
      · rw [if_neg hxl, hparent2 (parentOf s j) (hparent_lt j hj), if_neg hxl,
          hparent_root j hj]
  -- available slot readable at the new root of each node
  have havail_t : ∀ j, j < n → availOf s2 (root2 s2 j) =
      (if availOf s j = a then pv else availOf s j) := by
    intro j hj
    have hxroot := hparent_root j hj
    have hxlt := hparent_lt j hj
    rw [hroot2 j hj]
    by_cases hja : availOf s j = a
    · -- j's root must be ra
      have hxa : availOf s (parentOf s j) = a := by rw [← havail_flat j hj]; exact hja
      have hx_ra : parentOf s j = ra :=
        hInv.roots_inj _ _ hxlt hra_lt hxroot hra_root (by rw [hxa, hra_avail])
      rw [if_pos hja]
      rcases hwl with ⟨hwra, hlrp⟩ | ⟨hwrp, hlra⟩
      · have hxl : parentOf s j ≠ l := by rw [hx_ra, hlrp]; exact hra_ne_rp
        rw [if_neg hxl, hx_ra, ← hwra]
        exact havail2_w
      · have hxl : parentOf s j = l := by rw [hx_ra, hlra]
        rw [if_pos hxl]
        exact havail2_w
    · rw [if_neg hja]
      have hx_ne_ra : parentOf s j ≠ ra := by
        intro hcon
        apply hja
        rw [havail_flat j hj, hcon, hra_avail]
      by_cases hjpv : availOf s j = pv
      · have hx_rp : parentOf s j = rp :=
          hInv.roots_inj _ _ hxlt hrp_lt hxroot hrp_root
            (by rw [← havail_flat j hj, hjpv, hrp_avail])
        rcases hwl with ⟨hwra, hlrp⟩ | ⟨hwrp, hlra⟩
        · have hxl : parentOf s j = l := by rw [hx_rp, hlrp]
          rw [if_pos hxl, havail2_w, hjpv]
        · have hxl : parentOf s j ≠ l := by rw [hx_rp, hlra]; exact fun h => hra_ne_rp h.symm
          rw [if_neg hxl, hx_rp, ← hwrp, havail2_w, hjpv]
      · have hx_ne_rp : parentOf s j ≠ rp := by
          intro hcon
          exact hjpv (by rw [havail_flat j hj, hcon, hrp_avail])
        have hx_ne_l : parentOf s j ≠ l := by
          rcases hwl with ⟨_, hlrp⟩ | ⟨_, hlra⟩
          · rw [hlrp]; exact hx_ne_rp
          · rw [hlra]; exact hx_ne_ra
        have hx_ne_w : parentOf s j ≠ w := by
          rcases hwl with ⟨hwra, _⟩ | ⟨hwrp, _⟩
          · rw [hwra]; exact hx_ne_ra
          · rw [hwrp]; exact hx_ne_rp
        rw [if_neg hx_ne_l, havail2 _ hxlt hx_ne_l hx_ne_w, ← havail_flat j hj]
  refine ⟨hd2, ?_, Flat.flat2_self hd2, ?_, ?_, ?_, ?_⟩
  · rw [flat2_length]; exact hlen2
  · -- avail_latest
    intro i hi
    rw [latestFree_append, hupd i hi, flat2_avail (by rw [hlen2]; exact hi),
      havail_t i hi, hInv.avail_latest i hi]
    by_cases hia : availOf s i = a
    · rw [if_pos (by rw [hia]), if_pos hia]
    · rw [if_neg (by intro hcon; exact hia (Option.some_injective _ hcon)), if_neg hia]
  · -- roots_inj
    intro i j hi hj hri hrj hav
    rw [flat2_parent (by rw [hlen2]; exact hi)] at hri
    rw [flat2_parent (by rw [hlen2]; exact hj)] at hrj
    rw [flat2_avail (by rw [hlen2]; exact hi), flat2_avail (by rw [hlen2]; exact hj),
      hri, hrj] at hav
    have hchar : ∀ k, k < n → root2 s2 k = k →
        (k = w ∨ (parentOf s k = k ∧ k ≠ l ∧ k ≠ w)) := by
      intro k hk hrk
      rw [hroot2 k hk] at hrk
      by_cases hkl : parentOf s k = l
      · rw [if_pos hkl] at hrk
        exact Or.inl hrk.symm
      · rw [if_neg hkl] at hrk
        by_cases hkw : k = w
        · exact Or.inl hkw
        · refine Or.inr ⟨hrk, ?_, hkw⟩
          intro hcon
          apply hkl
          rw [hcon, hl_root]
    rcases hchar i hi hri with hiw | ⟨hir, hil, hiw⟩
    · rcases hchar j hj hrj with hjw | ⟨hjr, hjl, hjw⟩
      · rw [hiw, hjw]
      · subst hiw
        rw [havail2_w, havail2 j hj hjl hjw] at hav
        have hjrp : j = rp :=
          hInv.roots_inj j rp hj hrp_lt hjr hrp_root (by rw [← hav, hrp_avail])
        rcases hwl with ⟨_, hlrp⟩ | ⟨hwrp, _⟩
        · exact absurd (hjrp.trans hlrp.symm) hjl
        · exact absurd (hjrp.trans hwrp.symm) hjw
    · rcases hchar j hj hrj with hjw | ⟨hjr, hjl, hjw⟩
      · subst hjw
        rw [havail2_w, havail2 i hi hil hiw] at hav
        have hirp : i = rp :=
          hInv.roots_inj i rp hi hrp_lt hir hrp_root (by rw [hav, hrp_avail])
        rcases hwl with ⟨_, hlrp⟩ | ⟨hwrp, _⟩
        · exact absurd (hirp.trans hlrp.symm) hil
        · exact absurd (hirp.trans hwrp.symm) hiw
      · rw [havail2 i hi hil hiw, havail2 j hj hjl hjw] at hav
        exact hInv.roots_inj i j hi hj hir hjr hav
  · -- nodup
    rw [List.nodup_append]
    exact ⟨hInv.nodupA, List.nodup_singleton a, fun x hx hx' => by
      rw [List.mem_singleton] at hx'
      subst hx'
      exact haA hx⟩
  · intro x hx
    rcases List.mem_append.1 hx with h1 | h1
    · exact hInv.boundA x h1
    · rw [List.mem_singleton] at h1
      subst h1
      exact han

/-- `merge` on two distinct roots of a fully compressed forest: one of
the two becomes the winner `w` (stays a root), the other the loser `l`
(now a child of `w`); the winner's readable `available_slot` is the
second argument's, and no other entry's parent or available slot
changes. -/
theorem merge_root_spec {s : Forest} {ra rp : Nat} (hra_slt : ra < s.length)
    (hrp_slt : rp < s.length) (hra_root : parentOf s ra = ra)
    (hrp_root : parentOf s rp = rp) (hne : ra ≠ rp) :
    ∃ s2 w l, merge s ra rp = some s2 ∧
      ((w = ra ∧ l = rp) ∨ (w = rp ∧ l = ra)) ∧
      s2.length = s.length ∧
      (∀ j, j < s.length → parentOf s2 j = if j = l then w else parentOf s j) ∧
      availOf s2 w = availOf s rp ∧
      (∀ j, j < s.length → j ≠ l → j ≠ w → availOf s2 j = availOf s j) := by
  by_cases hrk : rankOf s rp < rankOf s ra
  · refine ⟨_, ra, rp, merge_gt hra_slt hrp_slt hne hrk, Or.inl ⟨rfl, rfl⟩, ?_, ?_, ?_, ?_⟩
    · rw [List.length_set, List.length_set]
    · intro j hj
      by_cases hja : j = ra
      · subst hja
        rw [parentOf_set_self (by rw [List.length_set]; exact hra_slt), if_neg hne]
      · rw [parentOf_set_ne (fun hcon => hja hcon.symm)]
        by_cases hjp : j = rp
        · subst hjp
          rw [if_pos rfl, parentOf_set_self hrp_slt]
        · rw [if_neg hjp, parentOf_set_ne (fun hcon => hjp hcon.symm)]
    · rw [availOf_set_self (by rw [List.length_set]; exact hra_slt)]
    · intro j hj hjl hjw
      rw [availOf_set_ne (fun hcon => hjw hcon.symm),
        availOf_set_ne (fun hcon => hjl hcon.symm)]
  · have hmg := merge_le hra_slt hrp_slt hne hrk
    by_cases heq : rankOf s ra = rankOf s rp
    · rw [if_pos heq] at hmg
      refine ⟨_, rp, ra, hmg, Or.inr ⟨rfl, rfl⟩, ?_, ?_, ?_, ?_⟩
      · rw [List.length_set, List.length_set]
      · intro j hj
        by_cases hjp : j = rp
        · subst hjp
          rw [parentOf_set_self (by rw [List.length_set]; exact hrp_slt),
            if_neg (fun hcon => hne hcon.symm)]
        · rw [parentOf_set_ne (fun hcon => hjp hcon.symm)]
          by_cases hja : j = ra
          · subst hja
            rw [if_pos rfl, parentOf_set_self hra_slt]
          · rw [if_neg hja, parentOf_set_ne (fun hcon => hja hcon.symm)]
      · rw [availOf_set_self (by rw [List.length_set]; exact hrp_slt)]
      · intro j hj hjl hjw
        rw [availOf_set_ne (fun hcon => hjw hcon.symm),
          availOf_set_ne (fun hcon => hjl hcon.symm)]
    · rw [if_neg heq] at hmg
      refine ⟨_, rp, ra, hmg, Or.inr ⟨rfl, rfl⟩, ?_, ?_, ?_, ?_⟩
      · rw [List.length_set]
      · intro j hj
        by_cases hja : j = ra
        · subst hja
          rw [if_pos rfl, parentOf_set_self hra_slt]
        · rw [if_neg hja, parentOf_set_ne (fun hcon => hja hcon.symm)]
      · rw [availOf_set_ne hne]
      · intro j hj hjl hjw
        rw [availOf_set_ne (fun hcon => hjl hcon.symm)]

/-- One uniting scheduling step from an invariant state: it succeeds,
assigns exactly the greedy "latest free" slot for the deadline, and
re-establishes the invariant with that slot recorded as assigned. -/
theorem sched_step_sound {n : Nat} {A : List Nat} {s : Forest} {d : Nat}
    (hInv : SchedInv n A s) (hd : d < n) (hrem : A.length + 2 ≤ n) (f : Nat) :
    ∃ a s', sched_step_op (f + 3) n (n - 1) true s d = some (a, s') ∧
      latestFree A n d = some a ∧ a ∉ A ∧ a < n ∧ SchedInv n (A ++ [a]) s' := by
  have hlen := hInv.len
  have hflat := hInv.flat
  have hdlt : d < s.length := by rw [hlen]; exact hd
  have hfind := findSet_flat hflat hdlt f
  have hrlt : parentOf s d < s.length := (hflat d hdlt).1
  have hda : availOf s d = availOf s (parentOf s d) := (hflat d hdlt).2.2
  have hlatest : latestFree A n d = some (availOf s (parentOf s d)) := by
    rw [← hda]; exact hInv.avail_latest d hd
  obtain ⟨han, haA⟩ := latestFree_spec hd hlatest
  have hn2 : 2 ≤ n := by omega
  have haslt : availOf s (parentOf s d) < s.length := by rw [hlen]; exact han
  have ha_self : availOf s (availOf s (parentOf s d)) = availOf s (parentOf s d) := by
    have h1 := hInv.avail_latest _ han
    have h2 := latestFree_at_free haA han
    rw [h1] at h2
    exact Option.some_injective _ h2
  have hw := second_free hInv.nodupA hInv.boundA hrem (availOf s (parentOf s d))
  have hpredlt : (if availOf s (parentOf s d) = 0 then n - 1
      else availOf s (parentOf s d) - 1) < n := by
    by_cases h0 : availOf s (parentOf s d) = 0
    · rw [if_pos h0]; omega
    · rw [if_neg h0]; omega
  obtain ⟨pv, hpv, hpv_ne⟩ := latestFree_pred han hw
  have hpredslt : (if availOf s (parentOf s d) = 0 then n - 1
      else availOf s (parentOf s d) - 1) < s.length := by rw [hlen]; exact hpredlt
  have hpred_avail : availOf s (if availOf s (parentOf s d) = 0 then n - 1
      else availOf s (parentOf s d) - 1) = pv := by
    have h1 := hInv.avail_latest _ hpredlt
    rw [h1] at hpv
    exact Option.some_injective _ hpv
  have hfind_a := findSet_flat hflat haslt f
  have hfind_p := findSet_flat hflat hpredslt f
  have hra_root : parentOf s (parentOf s (availOf s (parentOf s d)))
      = parentOf s (availOf s (parentOf s d)) := (hflat _ haslt).2.1
  have hrp_root : parentOf s (parentOf s (if availOf s (parentOf s d) = 0 then n - 1
      else availOf s (parentOf s d) - 1)) = parentOf s (if availOf s (parentOf s d) = 0
      then n - 1 else availOf s (parentOf s d) - 1) := (hflat _ hpredslt).2.1
  have hra_slt : parentOf s (availOf s (parentOf s d)) < s.length := (hflat _ haslt).1
  have hrp_slt : parentOf s (if availOf s (parentOf s d) = 0 then n - 1
      else availOf s (parentOf s d) - 1) < s.length := (hflat _ hpredslt).1
  have hra_lt : parentOf s (availOf s (parentOf s d)) < n := by rw [← hlen]; exact hra_slt
  have hrp_lt : parentOf s (if availOf s (parentOf s d) = 0 then n - 1
      else availOf s (parentOf s d) - 1) < n := by
    have hcopy := hrp_slt
    rw [hlen] at hcopy
    exact hcopy
  have hra_avail : availOf s (parentOf s (availOf s (parentOf s d)))
      = availOf s (parentOf s d) := by
    rw [← (hflat _ haslt).2.2]
    exact ha_self
  have hrp_avail : availOf s (parentOf s (if availOf s (parentOf s d) = 0 then n - 1
      else availOf s (parentOf s d) - 1)) = pv := by
    rw [← (hflat _ hpredslt).2.2]
    exact hpred_avail
  have hra_ne_rp : parentOf s (availOf s (parentOf s d)) ≠ parentOf s
      (if availOf s (parentOf s d) = 0 then n - 1 else availOf s (parentOf s d) - 1) := by
    intro hcon
    apply hpv_ne
    rw [← hrp_avail, ← hcon, hra_avail]
  have hupd : ∀ t, t < n → latestFree (availOf s (parentOf s d) :: A) n t =
      if latestFree A n t = some (availOf s (parentOf s d)) then some pv
      else latestFree A n t := by
    intro t ht
    rw [latestFree_update han hw ht, hpv]
  obtain ⟨s2, w, l, hmerge, hwl, hlen2, hparent2, havail2_w, havail2⟩ :=
    merge_root_spec hra_slt hrp_slt hra_root hrp_root hra_ne_rp
  have hlen2' : s2.length = n := by rw [hlen2]; exact hlen
  have hparent2' : ∀ j, j < n → parentOf s2 j = if j = l then w else parentOf s j := by
    intro j hj
    exact hparent2 j (by rw [hlen]; exact hj)
  have havail2_w' : availOf s2 w = pv := by rw [havail2_w, hrp_avail]
  have havail2' : ∀ j, j < n → j ≠ l → j ≠ w → availOf s2 j = availOf s j := by
    intro j hj
    exact havail2 j (by rw [hlen]; exact hj)
  obtain ⟨hd2, hInv'⟩ := post_merge_inv hInv haA han hpv_ne hupd hra_root hrp_root
    hra_lt hrp_lt hra_avail hrp_avail hwl hlen2' hparent2' havail2_w' havail2'
  obtain ⟨row, hdisp⟩ := display_flattens hd2 f
  rw [hlen2'] at hdisp
  have hunite : unite (f + 3) s (availOf s (parentOf s d))
      (if availOf s (parentOf s d) = 0 then n - 1 else availOf s (parentOf s d) - 1)
      = some s2 := by
    simp only [unite, hfind_a, hfind_p, hmerge]
  refine ⟨availOf s (parentOf s d), flat2 s2, ?_, hlatest, haA, han, hInv'⟩
  simp only [sched_step_op, hfind, getElem?_entry hrlt, eq_self_iff_true, if_true,
    hunite, hdisp]

/-- The final scheduling step (union skipped): it emits the greedy slot
for the deadline and leaves the state unchanged. -/
theorem sched_last_step {n : Nat} {A : List Nat} {s : Forest} {d : Nat}
    (hInv : SchedInv n A s) (hd : d < n) (f : Nat) :
    sched_step_op (f + 3) n (n - 1) false s d = some (availOf s d, s) ∧
      latestFree A n d = some (availOf s d) := by
  have hlen := hInv.len
  have hflat := hInv.flat
  have hdlt : d < s.length := by rw [hlen]; exact hd
  have hfind := findSet_flat hflat hdlt f
  have hrlt : parentOf s d < s.length := (hflat d hdlt).1
  have hda : availOf s d = availOf s (parentOf s d) := (hflat d hdlt).2.2
  obtain ⟨row, hdisp⟩ := display_flat_id hflat f
  rw [hlen] at hdisp
  constructor
  · simp only [sched_step_op, hfind, getElem?_entry hrlt, Bool.false_eq_true, if_false,
      hdisp]
    rw [hda]
  · exact hInv.avail_latest d hd

/-- The always-unite loop from an invariant state: it succeeds, and each
emitted assignment is the greedy answer for its deadline given the slots
assigned before it. -/
theorem runU {n : Nat} (f : Nat) : ∀ (ds A : List Nat) (s : Forest),
    SchedInv n A s → (∀ x ∈ ds, x < n) → A.length + ds.length + 1 ≤ n →
    ∃ out s', schedLoopU (f + 3) n (n - 1) ds s = some (out, s') ∧
      out.length = ds.length ∧ SchedInv n (A ++ out) s' ∧
      ∀ k dk, ds[k]? = some dk → latestFree (A ++ out.take k) n dk = out[k]? := by
  intro ds
  induction ds with
  | nil =>
    intro A s hInv _ _
    refine ⟨[], s, rfl, rfl, by rw [List.append_nil]; exact hInv, ?_⟩
    intro k dk hk
    simp at hk
  | cons d ds ih =>
    intro A s hInv hds hlen
    have hd : d < n := hds d (List.mem_cons_self d ds)
    obtain ⟨a, s', hstep, hlat, haA, han, hInv'⟩ :=
      sched_step_sound hInv hd (by simp at hlen; omega) f
    obtain ⟨out, s'', hloop, hlen_out, hInv'', hchar⟩ :=
      ih (A ++ [a]) s' hInv' (fun x hx => hds x (List.mem_cons_of_mem d hx))
        (by simp at hlen ⊢; omega)
    refine ⟨a :: out, s'', ?_, by simp [hlen_out], ?_, ?_⟩
    · simp only [schedLoopU, hstep, hloop]
    · have : A ++ [a] ++ out = A ++ (a :: out) := by simp
      rw [← this]
      exact hInv''
    · intro k dk hk
      cases k with
      | zero =>
        simp only [List.getElem?_cons_zero] at hk
        injection hk with hk
        subst hk
        simp only [List.take_zero, List.append_nil, List.getElem?_cons_zero]
        rw [hlat]
      | succ k =>
        simp only [List.getElem?_cons_succ] at hk ⊢
        have : A ++ (a :: out).take (k + 1) = (A ++ [a]) ++ out.take k := by
          simp [List.take_cons]
        rw [this]
        exact hchar k dk hk

theorem schedLoopP_cons_step {fuel n last d : Nat} {ds : List Nat} {s s' : Forest} {a : Nat}
    (hne : ds ≠ []) (hstep : sched_step_op fuel n last true s d = some (a, s')) :
    schedLoopP fuel n last (d :: ds) s =
      (a :: (schedLoopP fuel n last ds s').1, (schedLoopP fuel n last ds s').2) := by
  have hemp : ds.isEmpty = false := by
    cases ds with
    | nil => exact absurd rfl hne
    | cons x xs => rfl
  cases hf : findSet fuel s d with
  | none =>
    simp only [sched_step_op, hf] at hstep
    exact absurd hstep (by simp)
  | some rs =>
    obtain ⟨r, s1⟩ := rs
    cases he : s1[r]? with
    | none =>
      simp only [sched_step_op, hf, he] at hstep
      exact absurd hstep (by simp)
    | some e =>
      simp only [sched_step_op, hf, he, eq_self_iff_true, if_true] at hstep
      cases hu : unite fuel s1 e.available_slot
          (if e.available_slot = 0 then last else e.available_slot - 1) with
      | none =>
        simp only [hu] at hstep
        exact absurd hstep (by simp)
      | some s2 =>
        simp only [hu] at hstep
        cases hdp : displayLoop fuel (List.range n) s2 with
        | none =>
          simp only [hdp] at hstep
          exact absurd hstep (by simp)
        | some rt =>
          obtain ⟨row, s3⟩ := rt
          simp only [hdp] at hstep
          injection hstep with hstep
          injection hstep with h1 h2
          subst h1
          subst h2
          simp only [schedLoopP, hf, he, hemp, Bool.false_eq_true, if_false, hu, hdp]

theorem schedLoopP_last {fuel n last d : Nat} {s s' : Forest} {a : Nat}
    (hstep : sched_step_op fuel n last false s d = some (a, s')) :
    schedLoopP fuel n last [d] s = ([a], some s') := by
  cases hf : findSet fuel s d with
  | none =>
    simp only [sched_step_op, hf] at hstep
    exact absurd hstep (by simp)
  | some rs =>
    obtain ⟨r, s1⟩ := rs
    cases he : s1[r]? with
    | none =>
      simp only [sched_step_op, hf, he] at hstep
      exact absurd hstep (by simp)
    | some e =>
      simp only [sched_step_op, hf, he, Bool.false_eq_true, if_false] at hstep
      cases hdp : displayLoop fuel (List.range n) s1 with
      | none =>
        simp only [hdp] at hstep
        exact absurd hstep (by simp)
      | some rt =>
        obtain ⟨row, s3⟩ := rt
        simp only [hdp] at hstep
        injection hstep with hstep
        injection hstep with h1 h2
        subst h1
        subst h2
        simp only [schedLoopP, hf, he, List.isEmpty_nil, if_true, hdp]

theorem schedLoopP_decomp {fuel n last : Nat} : ∀ {l₁ : List Nat} {l₂ : List Nat}
    {s s1 : Forest} {out : List Nat}, l₂ ≠ [] →
    schedLoopU fuel n last l₁ s = some (out, s1) →
    schedLoopP fuel n last (l₁ ++ l₂) s =
      (out ++ (schedLoopP fuel n last l₂ s1).1, (schedLoopP fuel n last l₂ s1).2) := by
  intro l₁
  induction l₁ with
  | nil =>
    intro l₂ s s1 out hne hU
    simp only [schedLoopU] at hU
    injection hU with hU
    injection hU with h1 h2
    subst h1
    subst h2
    rw [List.nil_append, List.nil_append]
  | cons d l₁ ih =>
    intro l₂ s s1 out hne hU
    cases hstep : sched_step_op fuel n last true s d with
    | none =>
      simp only [schedLoopU, hstep] at hU
      exact absurd hU (by simp)
    | some asx =>
      obtain ⟨a, s'⟩ := asx
      cases hloop : schedLoopU fuel n last l₁ s' with
      | none =>
        simp only [schedLoopU, hstep, hloop] at hU
        exact absurd hU (by simp)
      | some os =>
        obtain ⟨out1, s1'⟩ := os
        simp only [schedLoopU, hstep, hloop] at hU
        injection hU with hU
        injection hU with h1 h2
        subst h1
        subst h2
        rw [List.cons_append]
        rw [schedLoopP_cons_step (by simp [hne]) hstep]
        rw [ih hne hloop]
        rfl

/-- A full scheduling run from the initial forest: it completes, emits
`n` distinct in-range assignments, and each assignment is the greedy
"latest free slot" answer for its deadline, relative to the slots
assigned by the earlier tasks. -/
theorem run_main {n : Nat} {ds : List Nat} (hn : 1 ≤ n) (hlen : ds.length = n)
    (hds : ∀ x ∈ ds, x < n) :
    ∃ out sfin, schedRun n ds = (out, some sfin) ∧ out.length = n ∧
      out.Nodup ∧ (∀ x ∈ out, x < n) ∧
      (∀ k dk, ds[k]? = some dk → latestFree (out.take k) n dk = out[k]?) := by
  by_cases hn1 : n = 1
  · subst hn1
    have hds1 : ds = [0] := by
      cases ds with
      | nil => simp at hlen
      | cons x xs =>
        cases xs with
        | nil =>
          have hx : x < 1 := hds x (List.mem_cons_self x [])
          have hx0 : x = 0 := by omega
          rw [hx0]
        | cons y ys => simp at hlen
    subst hds1
    refine ⟨[0], [⟨0, 0, 0⟩], by decide, rfl, by decide, by decide, ?_⟩
    intro k dk hk
    cases k with
    | zero =>
      simp only [List.getElem?_cons_zero] at hk
      injection hk with hk
      subst hk
      decide
    | succ k => simp at hk
  · have hn2 : 2 ≤ n := by omega
    have hne : ds ≠ [] := by
      intro h
      rw [h] at hlen
      simp at hlen
      omega
    have hl1len : ds.dropLast.length = n - 1 := by rw [List.length_dropLast, hlen]
    have hsplit := List.dropLast_append_getLast hne
    have hdl : ds.getLast hne < n := hds _ (List.getLast_mem hne)
    obtain ⟨out1, s1, hU, hlen1, hInv1, hchar1⟩ := runU (n - 2) ds.dropLast [] (mkForest n)
      (SchedInv.init n) (fun x hx => hds x (List.dropLast_subset ds hx))
      (by simp only [List.length_nil, hl1len]; omega)
    rw [List.nil_append] at hInv1
    rw [show n - 2 + 3 = n + 1 by omega] at hU
    obtain ⟨hlast, hlatl⟩ := sched_last_step hInv1 hdl (n - 2)
    rw [show n - 2 + 3 = n + 1 by omega] at hlast
    have hP := schedLoopP_decomp (show [ds.getLast hne] ≠ [] by simp) hU
    rw [schedLoopP_last hlast] at hP
    have hrun : schedRun n ds = (out1 ++ [availOf s1 (ds.getLast hne)], some s1) := by
      unfold schedRun
      conv_lhs => rw [← hsplit]
      exact hP
    obtain ⟨halt, hal_free⟩ := latestFree_spec hdl hlatl
    have hal_notmem : availOf s1 (ds.getLast hne) ∉ out1 := hal_free
    have hlen_out1 : out1.length = n - 1 := by rw [hlen1, hl1len]
    refine ⟨out1 ++ [availOf s1 (ds.getLast hne)], s1, hrun, ?_, ?_, ?_, ?_⟩
    · rw [List.length_append, hlen_out1, List.length_singleton]
      omega
    · rw [List.nodup_append]
      refine ⟨hInv1.nodupA, List.nodup_singleton _, ?_⟩
      intro x hx hx'
      rw [List.mem_singleton] at hx'
      subst hx'
      exact hal_notmem hx
    · intro x hx
      rcases List.mem_append.1 hx with h1 | h1
      · exact hInv1.boundA x h1
      · rw [List.mem_singleton] at h1
        subst h1
        exact halt
    · intro k dk hk
      by_cases hk1 : k < n - 1
      · have hk' : ds.dropLast[k]? = some dk := by
          rw [← hsplit] at hk
          rw [← List.getElem?_append_left (by rw [hl1len]; exact hk1)]
          exact hk
        have ht1 : (out1 ++ [availOf s1 (ds.getLast hne)]).take k = out1.take k :=
          List.take_append_of_le_length (by rw [hlen_out1]; omega)
        have ht2 : (out1 ++ [availOf s1 (ds.getLast hne)])[k]? = out1[k]? :=
          List.getElem?_append_left (by rw [hlen_out1]; exact hk1)
        rw [ht1, ht2]
        have := hchar1 k dk hk'
        rw [List.nil_append] at this
        exact this
      · by_cases hk2 : k = n - 1
        · subst hk2
          have hdk : dk = ds.getLast hne := by
            rw [← hsplit] at hk
            rw [List.getElem?_append_right hl1len.le] at hk
            rw [hl1len] at hk
            simp at hk
            exact hk.symm
          subst hdk
          have ht1 : (out1 ++ [availOf s1 (ds.getLast hne)]).take (n - 1) = out1 := by
            rw [← hlen_out1]
            exact List.take_left out1 _
          have ht2 : (out1 ++ [availOf s1 (ds.getLast hne)])[n - 1]?
              = some (availOf s1 (ds.getLast hne)) := by
            rw [← hlen_out1]
            exact List.getElem?_concat_length out1 _
          rw [ht1, ht2]
          exact hlatl
        · have : ds[k]? = none := List.getElem?_eq_none (by rw [hlen]; omega)
          rw [this] at hk
          exact absurd hk (by simp)

/-- On a fully compressed forest, `find_set` needs only two units of
fuel. -/
theorem findSet_flat2 {s : Forest} (hf : Flat s) {i : Nat} (hi : i < s.length) (f : Nat) :
    findSet (f + 2) s i = some (parentOf s i, s) := by
  obtain ⟨h1, h2, h3⟩ := hf i hi
  by_cases hroot : parentOf s i = i
  · rw [hroot]
    exact findSet_at_root hi hroot (f + 1)
  · exact findSet_depth1_id hi rfl (fun h => hroot h) h1 h2 h3 f

/-- An out-of-range index makes `find_set` fail immediately (the C code
would read out of bounds). -/
theorem findSet_oob {s : Forest} {d : Nat} (h : s.length ≤ d) (f : Nat) :
    findSet f s d = none := by
  cases f with
  | zero => rfl
  | succ f =>
    simp only [findSet, List.getElem?_eq_none h]

/-- From an invariant state, querying any slot succeeds and resolves to
an in-range slot that no earlier task received. -/
theorem inv_find_ok {n : Nat} {A : List Nat} {s : Forest} (hInv : SchedInv n A s)
    {t : Nat} (ht : t < n) :
    ∃ r sc, findSet (n + 1) s t = some (r, sc) ∧ availOf s r < n ∧ availOf s r ∉ A := by
  have hlen := hInv.len
  have htl : t < s.length := by rw [hlen]; exact ht
  have hfind := findSet_flat2 hInv.flat htl (n - 1)
  rw [show n - 1 + 2 = n + 1 by omega] at hfind
  refine ⟨parentOf s t, s, hfind, ?_⟩
  have hav : availOf s (parentOf s t) = availOf s t := ((hInv.flat t htl).2.2).symm
  rw [hav]
  have := hInv.avail_latest t ht
  exact latestFree_spec ht this

/-- Roots are preserved in the reverse direction as well: any root
relation holding after a `find_set` already held before it. -/
theorem findSet_preserves_root_rev {f : Nat} {s : Forest} {i r : Nat} {s' : Forest}
    (h : findSet f s i = some (r, s')) :
    ∀ {g j σ : Nat}, rootAux g s' j = some σ → ∃ g', rootAux g' s j = some σ := by
  obtain ⟨P, F⟩ := findSet_spec h
  intro g
  induction g with
  | zero => intro j σ hg; simp [rootAux] at hg
  | succ g ih =>
    intro j σ hg
    by_cases hjP : j ∈ P
    · have hrj : r ≠ j := fun hcon => F.root_not_mem (hcon ▸ hjP)
      simp only [rootAux, F.compressed j hjP] at hg
      rw [if_neg hrj] at hg
      have hg1 : 1 ≤ g := by
        cases g with
        | zero => simp [rootAux] at hg
        | succ g' => omega
      obtain ⟨g', rfl⟩ : ∃ g', g = g' + 1 := ⟨g - 1, by omega⟩
      obtain ⟨er, her⟩ := getElem?_isSome_of_lt F.root_lt
      have her' : s'[r]? = some er := by rw [F.frame r F.root_not_mem]; exact her
      have hern : er.parent = r := by
        have hrp := F.root_parent
        rw [parentOf_eq her] at hrp
        exact hrp
      simp only [rootAux, her'] at hg
      rw [if_pos hern] at hg
      injection hg with hg
      subst hg
      exact F.path_root j hjP
    · cases hsj : s[j]? with
      | none =>
        rw [← F.frame j hjP] at hsj
        simp only [rootAux, hsj] at hg
        exact absurd hg (by simp)
      | some ej =>
        have hsj' : s'[j]? = some ej := by rw [F.frame j hjP]; exact hsj
        simp only [rootAux, hsj'] at hg
        by_cases hpj : ej.parent = j
        · rw [if_pos hpj] at hg
          refine ⟨g + 1, ?_⟩
          simp only [rootAux, hsj]
          rw [if_pos hpj]
          exact hg
        · rw [if_neg hpj] at hg
          obtain ⟨g', hg'⟩ := ih hg
          refine ⟨g' + 1, ?_⟩
          simp only [rootAux, hsj]
          rw [if_neg hpj]
          exact hg'

/-- `rootAux` depends only on the parent fields (and the length). -/
theorem rootAux_congr_parent {s t : Forest} (hlen : t.length = s.length)
    (hp : ∀ j, j < s.length → parentOf t j = parentOf s j) :
    ∀ {g : Nat} {j σ : Nat}, rootAux g s j = some σ → rootAux g t j = some σ := by
  intro g
  induction g with
  | zero => intro j σ hg; simp [rootAux] at hg
  | succ g ih =>
    intro j σ hg
    cases hsj : s[j]? with
    | none => simp only [rootAux, hsj] at hg; exact absurd hg (by simp)
    | some ej =>
      simp only [rootAux, hsj] at hg
      have hjlt : j < s.length := lt_of_getElem?_eq_some hsj
      obtain ⟨et, het⟩ := getElem?_isSome_of_lt (show j < t.length by rw [hlen]; exact hjlt)
      have hpar : et.parent = ej.parent := by
        have h1 := hp j hjlt
        rw [parentOf_eq het, parentOf_eq hsj] at h1
        exact h1
      simp only [rootAux, het, hpar]
      by_cases hpj : ej.parent = j
      · rw [if_pos hpj] at hg ⊢
        exact hg
      · rw [if_neg hpj] at hg ⊢
        exact ih hg

/-! ### The claims -/

/-- C1: for every `size ≥ 1` and every deadline sequence of length
`size` with values in `[0, size)`, a full scheduling run emits exactly
`size` assignments, each assigned slot lies in `[0, size)`, no slot is
assigned twice, and every slot is assigned: the task-to-slot mapping is
a bijection. -/
theorem claim_C1 (n : Nat) (ds : List Nat) (hn : 1 ≤ n) (hlen : ds.length = n)
    (hds : ∀ x ∈ ds, x < n) :
    ∃ out, schedule n ds = some out ∧ out.length = n ∧ out.Nodup ∧
      (∀ x ∈ out, x < n) ∧ (∀ t, t < n → t ∈ out) := by
  obtain ⟨out, sfin, hrun, h1, h2, h3, _⟩ := run_main hn hlen hds
  refine ⟨out, ?_, h1, h2, h3, ?_⟩
  · unfold schedule
    rw [hrun]
  · intro t ht
    have hsub : out.toFinset ⊆ Finset.range n := fun x hx =>
      Finset.mem_range.2 (h3 x (List.mem_toFinset.1 hx))
    have hcard : out.toFinset.card = n := by
      rw [List.toFinset_card_of_nodup h2, h1]
    have heq : out.toFinset = Finset.range n :=
      Finset.eq_of_subset_of_card_le hsub (by rw [hcard, Finset.card_range])
    have : t ∈ out.toFinset := by
      rw [heq, Finset.mem_range]
      exact ht
    exact List.mem_toFinset.1 this

theorem claim_C1_witness :
    ∃ out, schedule 2 [0, 1] = some out ∧ out.length = 2 ∧ out.Nodup ∧
      (∀ x ∈ out, x < 2) ∧ (∀ t, t < 2 → t ∈ out) :=
  claim_C1 2 [0, 1] (by decide) (by decide) (by decide)

/-- C2: at every step of a scheduling run with in-range deadlines, the
slot assigned to the current task is the latest slot still unassigned
among slots `0..d` (for the task's deadline `d`), and, when no slot at
or before `d` is still unassigned, the latest still-unassigned slot
overall (the circular wrap past slot 0): the emitted assignment at
position `k` equals `latestFree` of the previously emitted ones. -/
theorem claim_C2 (n : Nat) (ds : List Nat) (hn : 1 ≤ n) (hlen : ds.length = n)
    (hds : ∀ x ∈ ds, x < n) :
    ∃ out, schedule n ds = some out ∧ out.length = n ∧
      ∀ k dk, ds[k]? = some dk → latestFree (out.take k) n dk = out[k]? := by
  obtain ⟨out, sfin, hrun, h1, _, _, hchar⟩ := run_main hn hlen hds
  refine ⟨out, ?_, h1, hchar⟩
  unfold schedule
  rw [hrun]

theorem claim_C2_witness :
    ∃ out, schedule 2 [0, 0] = some out ∧ out.length = 2 ∧
      ∀ k dk, [0, 0][k]? = some dk → latestFree (out.take k) 2 dk = out[k]? :=
  claim_C2 2 [0, 0] (by decide) (by decide) (by decide)

/-- C3: `merge` on two distinct roots `a`, `b`: if `rank a > rank b`
then `b`'s parent becomes `a` and `a`'s `available_slot` is overwritten
with `b`'s; otherwise `a`'s parent becomes `b`, `b`'s rank incrementing
exactly when the ranks were equal; either way the surviving root's
readable `available_slot` is the one root `b` held before the call. -/
theorem claim_C3 (s : Forest) (a b : Nat) (ha : a < s.length) (hb : b < s.length)
    (hab : a ≠ b) (hra : parentOf s a = a) (hrb : parentOf s b = b) :
    ∃ s', merge s a b = some s' ∧
      (rankOf s b < rankOf s a →
        parentOf s' b = a ∧ availOf s' a = availOf s b ∧ parentOf s' a = a) ∧
      (¬ rankOf s b < rankOf s a →
        parentOf s' a = b ∧ parentOf s' b = b ∧ availOf s' b = availOf s b ∧
        rankOf s' b = (if rankOf s a = rankOf s b then rankOf s b + 1 else rankOf s b)) ∧
      availOf s' (if rankOf s b < rankOf s a then a else b) = availOf s b := by
  by_cases hrk : rankOf s b < rankOf s a
  · refine ⟨_, merge_gt ha hb hab hrk, ?_, fun hcon => absurd hrk hcon, ?_⟩
    · intro _
      refine ⟨?_, ?_, ?_⟩
      · rw [parentOf_set_ne (fun hcon => hab hcon), parentOf_set_self hb]
      · rw [availOf_set_self (by rw [List.length_set]; exact ha)]
      · rw [parentOf_set_self (by rw [List.length_set]; exact ha)]
        exact hra
    · rw [if_pos hrk, availOf_set_self (by rw [List.length_set]; exact ha)]
  · have hmg := merge_le ha hb hab hrk
    by_cases heq : rankOf s a = rankOf s b
    · rw [if_pos heq] at hmg
      refine ⟨_, hmg, fun hcon => absurd hcon hrk, ?_, ?_⟩
      · intro _
        refine ⟨?_, ?_, ?_, ?_⟩
        · rw [parentOf_set_ne (fun hcon => hab hcon.symm), parentOf_set_self ha]
        · rw [parentOf_set_self (by rw [List.length_set]; exact hb)]
          exact hrb
        · rw [availOf_set_self (by rw [List.length_set]; exact hb)]
        · rw [rankOf_set_self (by rw [List.length_set]; exact hb), if_pos heq, heq]
      · rw [if_neg hrk, availOf_set_self (by rw [List.length_set]; exact hb)]
    · rw [if_neg heq] at hmg
      refine ⟨_, hmg, fun hcon => absurd hcon hrk, ?_, ?_⟩
      · intro _
        refine ⟨?_, ?_, ?_, ?_⟩
        · rw [parentOf_set_self ha]
        · rw [parentOf_set_ne hab]
          exact hrb
        · rw [availOf_set_ne hab]
        · rw [rankOf_set_ne hab, if_neg heq]
      · rw [if_neg hrk, availOf_set_ne hab]

theorem claim_C3_witness :
    ∃ s', merge [(⟨0, 0, 0⟩ : slot_set), ⟨1, 1, 0⟩] 0 1 = some s' ∧
      (rankOf [(⟨0, 0, 0⟩ : slot_set), ⟨1, 1, 0⟩] 1
          < rankOf [(⟨0, 0, 0⟩ : slot_set), ⟨1, 1, 0⟩] 0 →
        parentOf s' 1 = 0 ∧ availOf s' 0 = availOf [(⟨0, 0, 0⟩ : slot_set), ⟨1, 1, 0⟩] 1 ∧
        parentOf s' 0 = 0) ∧
      (¬ rankOf [(⟨0, 0, 0⟩ : slot_set), ⟨1, 1, 0⟩] 1
          < rankOf [(⟨0, 0, 0⟩ : slot_set), ⟨1, 1, 0⟩] 0 →
        parentOf s' 0 = 1 ∧ parentOf s' 1 = 1 ∧
        availOf s' 1 = availOf [(⟨0, 0, 0⟩ : slot_set), ⟨1, 1, 0⟩] 1 ∧
        rankOf s' 1 = (if rankOf [(⟨0, 0, 0⟩ : slot_set), ⟨1, 1, 0⟩] 0
          = rankOf [(⟨0, 0, 0⟩ : slot_set), ⟨1, 1, 0⟩] 1
          then rankOf [(⟨0, 0, 0⟩ : slot_set), ⟨1, 1, 0⟩] 1 + 1
          else rankOf [(⟨0, 0, 0⟩ : slot_set), ⟨1, 1, 0⟩] 1)) ∧
      availOf s' (if rankOf [(⟨0, 0, 0⟩ : slot_set), ⟨1, 1, 0⟩] 1
          < rankOf [(⟨0, 0, 0⟩ : slot_set), ⟨1, 1, 0⟩] 0 then 0 else 1)
        = availOf [(⟨0, 0, 0⟩ : slot_set), ⟨1, 1, 0⟩] 1 :=
  claim_C3 [⟨0, 0, 0⟩, ⟨1, 1, 0⟩] 0 1 (by decide) (by decide) (by decide)
    (by decide) (by decide)

/-- C5: a successful `find_set` returns the root of the queried slot's
tree, and afterwards every node that was on the path from the slot to
the root (the root excluded) points directly at that root and carries
the root's `available_slot`. -/
theorem claim_C5 (f : Nat) (s : Forest) (i r : Nat) (s' : Forest)
    (h : findSet f s i = some (r, s')) :
    ∃ P, pathAux f s i = some P ∧ rootAux f s i = some r ∧ r ∉ P ∧
      parentOf s' r = r ∧
      ∀ j ∈ P, parentOf s' j = r ∧ availOf s' j = availOf s' r := by
  obtain ⟨P, F⟩ := findSet_spec h
  refine ⟨P, F.path, F.root, F.root_not_mem, ?_, ?_⟩
  · rw [parentOf_congr_entry (F.frame r F.root_not_mem)]
    exact F.root_parent
  · intro j hj
    refine ⟨parentOf_eq (F.compressed j hj), ?_⟩
    rw [availOf_eq (F.compressed j hj),
      availOf_congr_entry (F.frame r F.root_not_mem)]

theorem claim_C5_witness :
    ∃ P, pathAux 3 [(⟨5, 1, 0⟩ : slot_set), ⟨7, 2, 1⟩, ⟨7, 2, 2⟩] 0 = some P ∧
      rootAux 3 [(⟨5, 1, 0⟩ : slot_set), ⟨7, 2, 1⟩, ⟨7, 2, 2⟩] 0 = some 2 ∧ 2 ∉ P ∧
      parentOf [(⟨7, 2, 0⟩ : slot_set), ⟨7, 2, 1⟩, ⟨7, 2, 2⟩] 2 = 2 ∧
      ∀ j ∈ P, parentOf [(⟨7, 2, 0⟩ : slot_set), ⟨7, 2, 1⟩, ⟨7, 2, 2⟩] j = 2 ∧
        availOf [(⟨7, 2, 0⟩ : slot_set), ⟨7, 2, 1⟩, ⟨7, 2, 2⟩] j
          = availOf [(⟨7, 2, 0⟩ : slot_set), ⟨7, 2, 1⟩, ⟨7, 2, 2⟩] 2 :=
  claim_C5 3 [⟨5, 1, 0⟩, ⟨7, 2, 1⟩, ⟨7, 2, 2⟩] 0 2
    [⟨7, 2, 0⟩, ⟨7, 2, 1⟩, ⟨7, 2, 2⟩] (by decide)

/-- C6: the run with `size = 10` on the default deadline sequence
`[0,6,1,9,2,5,3,3,6,0]` completes and deterministically emits the
0-based assignment sequence `0, 6, 1, 9, 2, 5, 3, 8, 4, 7` (task 1 gets
slot 0, task 2 slot 6, task 3 slot 1, and so on). -/
theorem claim_C6 : schedule 10 default_deadlines = some [0, 6, 1, 9, 2, 5, 3, 8, 4, 7] := by
  decide

/-- C4: before each task of a run with in-range deadlines is processed
(the state after the first `k` tasks, each of which performs its
union), querying any slot `s` via `find_set` succeeds and
`slot[find_set(slot, s)].available_slot` is a slot index in
`0..size-1` that no previously processed task has been assigned. -/
theorem claim_C4 (n : Nat) (ds : List Nat) (hn : 1 ≤ n) (hlen : ds.length = n)
    (hds : ∀ x ∈ ds, x < n) (k : Nat) (hk : k < n) :
    ∃ out sk, schedLoopU (n + 1) n (n - 1) (ds.take k) (mkForest n) = some (out, sk) ∧
      ∀ t, t < n → ∃ r sc, findSet (n + 1) sk t = some (r, sc) ∧
        availOf sk r < n ∧ availOf sk r ∉ out := by
  cases k with
  | zero =>
    refine ⟨[], mkForest n, by rw [List.take_zero]; rfl, ?_⟩
    intro t ht
    obtain ⟨r, sc, h1, h2, _⟩ := inv_find_ok (SchedInv.init n) ht
    exact ⟨r, sc, h1, h2, by simp⟩
  | succ k =>
    have hn2 : 2 ≤ n := by omega
    have htk : (ds.take (k + 1)).length = k + 1 := by
      rw [List.length_take]
      simp [hlen]
      omega
    obtain ⟨out, sk, hU, _, hInv, _⟩ := runU (n - 2) (ds.take (k + 1)) [] (mkForest n)
      (SchedInv.init n) (fun x hx => hds x (List.take_subset (k + 1) ds hx))
      (by simp only [List.length_nil, htk]; omega)
    rw [show n - 2 + 3 = n + 1 by omega] at hU
    rw [List.nil_append] at hInv
    refine ⟨out, sk, hU, ?_⟩
    intro t ht
    exact inv_find_ok hInv ht

theorem claim_C4_witness :
    ∃ out sk, schedLoopU 3 2 1 ([0, 1].take 1) (mkForest 2) = some (out, sk) ∧
      ∀ t, t < 2 → ∃ r sc, findSet 3 sk t = some (r, sc) ∧
        availOf sk r < 2 ∧ availOf sk r ∉ out :=
  claim_C4 2 [0, 1] (by decide) (by decide) (by decide) 1 (by decide)

/-- C9: `find_set` is idempotent: if a call returns representative `r`
and state `s'`, calling it again on the same slot (with any fuel ≥ 2)
returns the same representative and leaves the entire forest — every
`parent`, `available_slot` and `rank` field — exactly unchanged. -/
theorem claim_C9 (f f' : Nat) (s : Forest) (i r : Nat) (s' : Forest) (hf' : 2 ≤ f')
    (h : findSet f s i = some (r, s')) : findSet f' s' i = some (r, s') := by
  obtain ⟨P, F⟩ := findSet_spec h
  obtain ⟨g, rfl⟩ : ∃ g, f' = g + 2 := ⟨f' - 2, by omega⟩
  rcases F.self_mem with hm | ⟨hir, _, hs⟩
  · have hpi : parentOf s' i = r := parentOf_eq (F.compressed i hm)
    have hri : r ≠ i := fun hcon => F.root_not_mem (hcon ▸ hm)
    have hrlt' : r < s'.length := by rw [F.len]; exact F.root_lt
    have hilt : i < s'.length := by rw [F.len]; exact (F.mem_path i hm).1
    have hrroot : parentOf s' r = r := by
      rw [parentOf_congr_entry (F.frame r F.root_not_mem)]
      exact F.root_parent
    have hav : availOf s' i = availOf s' r := by
      rw [availOf_eq (F.compressed i hm),
        availOf_congr_entry (F.frame r F.root_not_mem)]
    exact findSet_depth1_id hilt hpi hri hrlt' hrroot hav g
  · subst hir
    subst hs
    exact findSet_at_root F.root_lt F.root_parent (g + 1)

theorem claim_C9_witness :
    findSet 3 [(⟨7, 2, 0⟩ : slot_set), ⟨7, 2, 1⟩, ⟨7, 2, 2⟩] 0
      = some (2, [⟨7, 2, 0⟩, ⟨7, 2, 1⟩, ⟨7, 2, 2⟩]) :=
  claim_C9 3 3 [⟨5, 1, 0⟩, ⟨7, 2, 1⟩, ⟨7, 2, 2⟩] 0 2
    [⟨7, 2, 0⟩, ⟨7, 2, 1⟩, ⟨7, 2, 2⟩] (by decide) (by decide)

/-- C7 counterexample: the code performs no out-of-range validation.
With `size = 2` and deadlines `[0, 5]` the run is not rejected before
scheduling starts: task 1 is assigned slot 0 (the partial schedule
`[0]` is emitted) and only then does task 2's out-of-range deadline hit
an out-of-bounds forest access (undefined behaviour, modelled `none`). -/
theorem claim_C7_counterexample :
    (schedRun 2 [0, 5]).1 = [0] ∧ (schedRun 2 [0, 5]).2 = none ∧
      schedule 2 [0, 5] = none := by
  decide

/-- Helper for the amended C7: if the prefix before some out-of-range
deadline runs to completion, the whole run fails. -/
theorem sched_fails_at {n : Nat} {ds : List Nat} {k0 d0 : Nat} {out : List Nat}
    {sk : Forest} (hlen : ds.length = n) (hk : k0 < ds.length)
    (hU : schedLoopU (n + 1) n (n - 1) (ds.take k0) (mkForest n) = some (out, sk))
    (hsklen : sk.length = n) (hd : ds[k0]? = some d0) (hnd : n ≤ d0) :
    schedule n ds = none := by
  have hdrop : ds.drop k0 = d0 :: ds.drop (k0 + 1) := by
    rw [List.drop_eq_getElem_cons hk]
    have : ds[k0] = d0 := by
      have := List.getElem?_eq_getElem hk
      rw [hd] at this
      exact (Option.some_injective _ this).symm
    rw [this]
  have hfail : schedLoopP (n + 1) n (n - 1) (ds.drop k0) sk = ([], none) := by
    rw [hdrop]
    have hfn : findSet (n + 1) sk d0 = none :=
      findSet_oob (by rw [hsklen]; exact hnd) (n + 1)
    simp only [schedLoopP, hfn]
  have hrun : schedRun n ds = (out, none) := by
    unfold schedRun
    conv_lhs => rw [← List.take_append_drop k0 ds]
    rw [schedLoopP_decomp (show ds.drop k0 ≠ [] from by rw [hdrop]; simp) hU, hfail]
    simp
  unfold schedule
  rw [hrun]

/-- C7 amended: the code contains no `OutOfRange` rejection at all.  A
deadline sequence with a value `≥ size` is not rejected up front:
the run proceeds, emitting assignments for the tasks before the first
offending deadline, and fails (an out-of-bounds forest access,
undefined behaviour in the C original) only when the offending task
itself is processed. -/
theorem claim_C7_amended (n : Nat) (ds : List Nat) (hn : 1 ≤ n) (hlen : ds.length = n)
    (hbad : ∃ d ∈ ds, n ≤ d) : schedule n ds = none := by
  have hex : ∃ k, n ≤ ds.getD k 0 ∧ k < ds.length := by
    obtain ⟨d, hdm, hdn⟩ := hbad
    obtain ⟨k, hk⟩ := List.mem_iff_getElem?.1 hdm
    refine ⟨k, ?_, (List.getElem?_eq_some_iff.1 hk).1⟩
    rw [List.getD_eq_getElem?_getD, hk]
    simpa using hdn
  obtain ⟨hge, hklt⟩ := Nat.find_spec hex
  have hk0n : Nat.find hex < n := by omega
  have hd : ds[Nat.find hex]? = some (ds.getD (Nat.find hex) 0) := by
    rw [List.getD_eq_getElem?_getD, List.getElem?_eq_getElem hklt]
    rfl
  have htake_lt : ∀ x ∈ ds.take (Nat.find hex), x < n := by
    intro x hx
    obtain ⟨j, hj⟩ := List.mem_iff_getElem?.1 hx
    have hjlt : j < Nat.find hex := by
      have hjl := (List.getElem?_eq_some_iff.1 hj).1
      rw [List.length_take] at hjl
      omega
    have hj' : ds[j]? = some x := by
      rw [← List.getElem?_take_of_lt hjlt]
      exact hj
    have hjlen : j < ds.length := (List.getElem?_eq_some_iff.1 hj').1
    have hnP := Nat.find_min hex hjlt
    by_contra hcon
    push_neg at hcon
    refine hnP ⟨?_, hjlen⟩
    rw [List.getD_eq_getElem?_getD, hj']
    simpa using hcon
  have htklen : (ds.take (Nat.find hex)).length = Nat.find hex := by
    rw [List.length_take]
    omega
  have hgetU : ∃ out sk, schedLoopU (n + 1) n (n - 1) (ds.take (Nat.find hex))
      (mkForest n) = some (out, sk) ∧ sk.length = n := by
    cases hk00 : Nat.find hex with
    | zero =>
      exact ⟨[], mkForest n, by rw [List.take_zero]; rfl, mkForest_length n⟩
    | succ k0m =>
      rw [← hk00]
      have hn2 : 2 ≤ n := by omega
      obtain ⟨out, sk, hU, _, hInv, _⟩ := runU (n - 2) (ds.take (Nat.find hex)) []
        (mkForest n) (SchedInv.init n) htake_lt
        (by simp only [List.length_nil, htklen]; omega)
      rw [show n - 2 + 3 = n + 1 by omega] at hU
      rw [List.nil_append] at hInv
      exact ⟨out, sk, hU, hInv.len⟩
  obtain ⟨out, sk, hU, hsklen⟩ := hgetU
  exact sched_fails_at hlen hklt hU hsklen hd hge

theorem claim_C7_amended_witness : schedule 2 [0, 5] = none :=
  claim_C7_amended 2 [0, 5] (by decide) (by decide)
    ⟨5, by decide, by decide⟩

/-- C8: between two scheduling steps (i.e. in the state left after the
first `k` tasks, which ends with the loop's own `display_all_sets`),
invoking the diagnostic per-slot representative query again returns
*exactly* the same forest — so no `available_slot` value stored in the
forest changes, and the sequence of assignments subsequently produced
is unchanged; its only internal effect, path compression, has already
reached a fixed point. -/
theorem claim_C8 (n : Nat) (ds : List Nat) (hn : 1 ≤ n) (hlen : ds.length = n)
    (hds : ∀ x ∈ ds, x < n) (k : Nat) (hk : k < n) (out : List Nat) (sk : Forest)
    (hrun : schedLoopU (n + 1) n (n - 1) (ds.take k) (mkForest n) = some (out, sk)) :
    ∃ row, display_all_sets (n + 1) n sk = some (row, sk) ∧
      (display_all_sets (n + 1) n sk).map
        (fun p => (schedLoopP (n + 1) n (n - 1) (ds.drop k) p.2).1)
        = some (schedLoopP (n + 1) n (n - 1) (ds.drop k) sk).1 := by
  have hInv : SchedInv n out sk := by
    cases k with
    | zero =>
      rw [List.take_zero] at hrun
      simp only [schedLoopU] at hrun
      injection hrun with hrun
      injection hrun with h1 h2
      subst h1
      subst h2
      exact SchedInv.init n
    | succ km =>
      have hn2 : 2 ≤ n := by omega
      have htklen : (ds.take (km + 1)).length = km + 1 := by
        rw [List.length_take]
        simp [hlen]
        omega
      obtain ⟨out', sk', hU, _, hInv', _⟩ := runU (n - 2) (ds.take (km + 1)) []
        (mkForest n) (SchedInv.init n)
        (fun x hx => hds x (List.take_subset (km + 1) ds hx))
        (by simp only [List.length_nil, htklen]; omega)
      rw [show n - 2 + 3 = n + 1 by omega] at hU
      rw [hU] at hrun
      injection hrun with hrun
      injection hrun with h1 h2
      subst h1
      subst h2
      rw [List.nil_append] at hInv'
      exact hInv'
  by_cases hn1 : n = 1
  · subst hn1
    have hk0 : k = 0 := by omega
    subst hk0
    rw [List.take_zero] at hrun
    simp only [schedLoopU] at hrun
    injection hrun with hrun
    injection hrun with h1 h2
    subst h1
    subst h2
    refine ⟨[0], by decide, ?_⟩
    rw [show display_all_sets (1 + 1) 1 (mkForest 1)
      = some ([0], mkForest 1) by decide]
    rfl
  · have hn2 : 2 ≤ n := by omega
    obtain ⟨row, hdisp⟩ := display_flat_id hInv.flat (n - 2)
    rw [show n - 2 + 3 = n + 1 by omega, hInv.len] at hdisp
    have hdisp' : display_all_sets (n + 1) n sk = some (row, sk) := hdisp
    refine ⟨row, hdisp', ?_⟩
    rw [hdisp']
    rfl

/-- C10: `unite` on two slots that already share a root `ρ` leaves the
partition into sets unchanged and the `available_slot` readable at every
root unchanged, but increments the common root's rank by one (`merge`
runs on `(ρ, ρ)` and takes its else branch, whose equal-rank test
fires). -/
theorem claim_C10 (f : Nat) (s : Forest) (a b ρ : Nat)
    (hra : rootAux f s a = some ρ) (hrb : rootAux f s b = some ρ) :
    ∃ s'', unite f s a b = some s'' ∧
      rankOf s'' ρ = rankOf s ρ + 1 ∧
      (∀ j j', SameSet s j j' ↔ SameSet s'' j j') ∧
      (∀ σ, σ < s.length → parentOf s σ = σ →
        parentOf s'' σ = σ ∧ availOf s'' σ = availOf s σ) := by
  obtain ⟨s1, hfa⟩ := findSet_of_rootAux hra
  obtain ⟨P1, F1⟩ := findSet_spec hfa
  have hrb1 : rootAux f s1 b = some ρ := findSet_preserves_root hfa hrb
  obtain ⟨s2, hfb⟩ := findSet_of_rootAux hrb1
  obtain ⟨P2, F2⟩ := findSet_spec hfb
  have hρs1 : s1[ρ]? = s[ρ]? := findSet_preserves_root_entry hfa F1.root_parent
  have hρ_root1 : parentOf s1 ρ = ρ := by
    rw [parentOf_congr_entry hρs1]
    exact F1.root_parent
  have hρs2 : s2[ρ]? = s1[ρ]? := findSet_preserves_root_entry hfb hρ_root1
  have hρ_root2 : parentOf s2 ρ = ρ := by
    rw [parentOf_congr_entry hρs2]
    exact hρ_root1
  have hρ_lt2 : ρ < s2.length := by
    rw [findSet_len hfb, findSet_len hfa]
    exact F1.root_lt
  have hmg := merge_self_root hρ_lt2 hρ_root2
  have hav2 : availOf s2 ρ = availOf s ρ := by
    rw [availOf_congr_entry hρs2, availOf_congr_entry hρs1]
  have hrk2 : rankOf s2 ρ = rankOf s ρ := by
    rw [rankOf_congr_entry hρs2, rankOf_congr_entry hρs1]
  have hparents : ∀ j, j < s2.length →
      parentOf (s2.set ρ ⟨availOf s2 ρ, ρ, rankOf s2 ρ + 1⟩) j = parentOf s2 j := by
    intro j hj
    by_cases hjρ : j = ρ
    · subst hjρ
      rw [parentOf_set_self hρ_lt2, hρ_root2]
    · rw [parentOf_set_ne (fun hcon => hjρ hcon.symm)]
  have hlen'' : (s2.set ρ ⟨availOf s2 ρ, ρ, rankOf s2 ρ + 1⟩).length = s2.length :=
    List.length_set s2 ρ _
  refine ⟨s2.set ρ ⟨availOf s2 ρ, ρ, rankOf s2 ρ + 1⟩, ?_, ?_, ?_, ?_⟩
  · simp only [unite, hfa, hfb, hmg]
  · rw [rankOf_set_self hρ_lt2, hrk2]
  · intro j j'
    constructor
    · rintro ⟨g, g', r0, hg, hg'⟩
      refine ⟨g, g', r0, ?_, ?_⟩
      · exact rootAux_congr_parent hlen'' hparents
          (findSet_preserves_root hfb (findSet_preserves_root hfa hg))
      · exact rootAux_congr_parent hlen'' hparents
          (findSet_preserves_root hfb (findSet_preserves_root hfa hg'))
    · rintro ⟨g, g', r0, hg, hg'⟩
      have hback : ∀ {gx jx}, rootAux gx (s2.set ρ ⟨availOf s2 ρ, ρ, rankOf s2 ρ + 1⟩) jx
          = some r0 → ∃ gy, rootAux gy s jx = some r0 := by
        intro gx jx hgx
        have h2 : rootAux gx s2 jx = some r0 := by
          refine rootAux_congr_parent ?_ ?_ hgx
          · rw [hlen'']
          · intro j hj
            rw [hlen''] at hj
            exact (hparents j hj).symm
        obtain ⟨g1, hg1⟩ := findSet_preserves_root_rev hfb h2
        exact findSet_preserves_root_rev hfa hg1
      obtain ⟨gy, hgy⟩ := hback hg
      obtain ⟨gy', hgy'⟩ := hback hg'
      exact ⟨gy, gy', r0, hgy, hgy'⟩
  · intro σ hσ hσroot
    have hσ1 : s1[σ]? = s[σ]? := findSet_preserves_root_entry hfa hσroot
    have hσroot1 : parentOf s1 σ = σ := by
      rw [parentOf_congr_entry hσ1]
      exact hσroot
    have hσ2 : s2[σ]? = s1[σ]? := findSet_preserves_root_entry hfb hσroot1
    have hσroot2 : parentOf s2 σ = σ := by
      rw [parentOf_congr_entry hσ2]
      exact hσroot1
    by_cases hσρ : σ = ρ
    · subst hσρ
      constructor
      · rw [parentOf_set_self hρ_lt2]
      · rw [availOf_set_self hρ_lt2, hav2]
    · constructor
      · rw [parentOf_set_ne (fun hcon => hσρ hcon.symm)]
        exact hσroot2
      · rw [availOf_set_ne (fun hcon => hσρ hcon.symm),
          availOf_congr_entry hσ2, availOf_congr_entry hσ1]

theorem claim_C10_witness :
    ∃ s'', unite 3 [(⟨0, 1, 0⟩ : slot_set), ⟨1, 1, 1⟩] 0 1 = some s'' ∧
      rankOf s'' 1 = rankOf [(⟨0, 1, 0⟩ : slot_set), ⟨1, 1, 1⟩] 1 + 1 ∧
      (∀ j j', SameSet [(⟨0, 1, 0⟩ : slot_set), ⟨1, 1, 1⟩] j j' ↔ SameSet s'' j j') ∧
      (∀ σ, σ < ([(⟨0, 1, 0⟩ : slot_set), ⟨1, 1, 1⟩] : Forest).length →
        parentOf [(⟨0, 1, 0⟩ : slot_set), ⟨1, 1, 1⟩] σ = σ →
        parentOf s'' σ = σ ∧
          availOf s'' σ = availOf [(⟨0, 1, 0⟩ : slot_set), ⟨1, 1, 1⟩] σ) :=
  claim_C10 3 [⟨0, 1, 0⟩, ⟨1, 1, 1⟩] 0 1 1 (by decide) (by decide)

theorem claim_C8_witness :
    ∃ row, display_all_sets 3 2 [(⟨1, 1, 0⟩ : slot_set), ⟨1, 1, 1⟩]
        = some (row, [(⟨1, 1, 0⟩ : slot_set), ⟨1, 1, 1⟩]) ∧
      (display_all_sets 3 2 [(⟨1, 1, 0⟩ : slot_set), ⟨1, 1, 1⟩]).map
        (fun p => (schedLoopP 3 2 1 ([0, 1].drop 1) p.2).1)
        = some (schedLoopP 3 2 1 ([0, 1].drop 1)
            [(⟨1, 1, 0⟩ : slot_set), ⟨1, 1, 1⟩]).1 :=
  claim_C8 2 [0, 1] (by decide) (by decide) (by decide) 1 (by decide) [0]
    [⟨1, 1, 0⟩, ⟨1, 1, 1⟩] (by decide)
